import Mathlib

/-!
Verification of the tic-tac-toe game engine core (`project.py`).

The Python classes are shallowly embedded: the mutable `TicTacToeGame`
object becomes a Lean structure, in-place mutation of `_current_moves`
becomes explicit state passing (functions that mutate return the new
state), Python `int` scores become `Int`, and fallible list indexing
(which can raise `IndexError` and wraps negative indices) is modelled by
`Option`-valued access with Python's signed-index semantics.
-/

namespace TTT

/-- `Player` named tuple of the source. -/
structure Player where
  label : String
  color : String
  isAi : Bool
deriving DecidableEq, Repr

/-- `Move` named tuple of the source: row and column are Python ints
(so they may be negative), the label defaults to the empty string. -/
structure Move where
  row : Int
  col : Int
  label : String := ""
deriving DecidableEq, Repr

instance : Inhabited Move := ⟨⟨0, 0, ""⟩⟩

/-- Python list read `l[i]`: non-negative indices from the front,
negative indices from the back, `none` models `IndexError`. -/
def pyIndex (l : List α) (i : Int) : Option α :=
  if 0 ≤ i then l[i.toNat]?
  else if 0 ≤ i + l.length then l[(i + l.length).toNat]?
  else none

/-- Python list write `l[i] = a` with the same signed-index semantics;
`none` models `IndexError`. -/
def pySet (l : List α) (i : Int) (a : α) : Option (List α) :=
  if 0 ≤ i then (if i.toNat < l.length then some (l.set i.toNat a) else none)
  else if 0 ≤ i + l.length then some (l.set (i + l.length).toNat a)
  else none

/-- The board of the game: `_current_moves`, a list of rows of `Move`s. -/
abbrev Board := List (List Move)

/-- The state of a `TicTacToeGame` object.  The debug instrumentation
fields (`debug_minmax`, `_nodes_evaluated`) are incidental output
counters and are not part of the modelled state. -/
structure Game where
  players : List Player
  player_idx : Nat
  gamemode : String
  board_size : Nat
  current_player : Player
  winner_combo : List (Int × Int)
  current_moves : Board
  has_winner : Bool
  winning_combos : List (List (Int × Int))
deriving DecidableEq, Repr

/-- In-bounds cell read used by the engine's own loops (which always
index with loop variables in `range(board_size)`). -/
def getCell (g : Game) (r c : Nat) : Move :=
  (g.current_moves[r]?.bind (fun row => row[c]?)).getD ⟨r, c, ""⟩

/-- Cell read at Python-int coordinates (used when coordinates come from
a stored combo). -/
def getCellI (g : Game) (i j : Int) : Move :=
  ((pyIndex g.current_moves i).bind (fun row => pyIndex row j)).getD ⟨i, j, ""⟩

/-- In-bounds cell write `self._current_moves[r][c] = m` for loop
coordinates. -/
def setCell (g : Game) (r c : Nat) (m : Move) : Game :=
  { g with current_moves :=
      g.current_moves.set r ((g.current_moves.getD r []).set c m) }

/-- `_setup_board`: a fresh `board_size × board_size` grid of empty
moves carrying their own coordinates. -/
def setup_moves (n : Nat) : Board :=
  (List.range n).map (fun row => (List.range n).map (fun col => ⟨row, col, ""⟩))

/-- `_get_winning_combos`: the rows of coordinates are read back from
the move objects, the columns are their transpose, and the two
diagonals are extracted positionally. -/
def _get_winning_combos (b : Board) : List (List (Int × Int)) :=
  let rows := b.map (fun row => row.map (fun m => (m.row, m.col)))
  let columns := rows.transpose
  let first_diagonal := rows.mapIdx (fun i row => row.getD i (0, 0))
  let second_diagonal := columns.reverse.mapIdx (fun j col => col.getD j (0, 0))
  rows ++ columns ++ [first_diagonal, second_diagonal]

/-- `DEFAULT_PLAYERS` of the source. -/
def DEFAULT_PLAYERS : List Player :=
  [⟨"X", "blue", false⟩, ⟨"O", "green", true⟩]

/-- `TicTacToeGame.__init__`: the `cycle` iterator is modelled by the
pair (`players`, `player_idx`); `next` has been called once, leaving the
first player current. -/
def initGame (players : List Player := DEFAULT_PLAYERS) (board_size : Nat := 3) : Game :=
  let moves := setup_moves board_size
  { players := players
    player_idx := 0
    gamemode := "PvP"
    board_size := board_size
    current_player := players.getD 0 ⟨"X", "blue", false⟩
    winner_combo := []
    current_moves := moves
    has_winner := false
    winning_combos := _get_winning_combos moves }

/-- `toggle_player`: advance the cyclic player iterator. -/
def toggle_player (g : Game) : Game :=
  let i := g.player_idx + 1
  { g with player_idx := i
           current_player := g.players.getD (i % g.players.length) g.current_player }

/-- `is_valid_move`: reads the target cell (Python indexing, so this can
raise, modelled by `none`) and returns `no_winner and move_was_not_played`. -/
def is_valid_move (g : Game) (move : Move) : Option Bool :=
  match pyIndex g.current_moves move.row with
  | none => none
  | some rowList =>
    match pyIndex rowList move.col with
    | none => none
    | some cell => some ((!g.has_winner) && (cell.label == ""))

/-- The labels along a combo, read from the current board. -/
def comboLabels (g : Game) (combo : List (Int × Int)) : List String :=
  combo.map (fun p => (getCellI g p.1 p.2).label)

/-- The win test of `process_move`: `results = set(labels)`;
`len(results) == 1 and "" not in results`. -/
def comboIsWin (g : Game) (combo : List (Int × Int)) : Bool :=
  let results := (comboLabels g combo).dedup
  results.length == 1 && !(results.contains "")

/-- The combo scan of `process_move`: the first winning combo (if any)
sets the winner flag and is recorded; the scan then stops. -/
def scanCombos (g : Game) : Game :=
  match g.winning_combos.find? (fun combo => comboIsWin g combo) with
  | some combo => { g with has_winner := true, winner_combo := combo }
  | none => g

/-- `process_move`: write the move into its cell (Python indexing), then
scan the winning-combo table. -/
def process_move (g : Game) (move : Move) : Option Game :=
  match pyIndex g.current_moves move.row with
  | none => none
  | some rowList =>
    match pySet rowList move.col move with
    | none => none
    | some rowList2 =>
      match pySet g.current_moves move.row rowList2 with
      | none => none
      | some board2 => some (scanCombos { g with current_moves := board2 })

/-- `has_winner`. -/
def has_winner_q (g : Game) : Bool := g.has_winner

/-- `is_tied`: no winner and every cell's label truthy (non-empty). -/
def is_tied (g : Game) : Bool :=
  (!g.has_winner) && g.current_moves.all (fun row => row.all (fun m => !(m.label == "")))

/-- `reset_game`: rewrite every cell of the existing grid to an empty
move at its own coordinates, clear the winner flag and combo. -/
def reset_game (g : Game) : Game :=
  { g with
    current_moves :=
      g.current_moves.mapIdx (fun row rowc => rowc.mapIdx (fun col _ => ⟨row, col, ""⟩))
    has_winner := false
    winner_combo := [] }

/-- How the GUI callers submit a move: `process_move` runs only when
`is_valid_move` returned `True`. -/
inductive SubmitResult where
  | indexError : SubmitResult
  | invalidMove : Game → SubmitResult
  | accepted : Game → SubmitResult
deriving DecidableEq, Repr

/-- The caller-side composite `submit_move`, as every caller in the
source uses the pair (`play`, `_play_pvp`, `_ai_play_minmax`): validate,
and process only on success.  A rejected move carries the caller's
untouched state. -/
def submit_move (g : Game) (move : Move) : SubmitResult :=
  match is_valid_move g move with
  | none => .indexError
  | some false => .invalidMove g
  | some true =>
    match process_move g move with
    | none => .indexError
    | some g2 => .accepted g2

/-- `POSITION_WEIGHTS` of the source. -/
def POSITION_WEIGHTS : List (List Int) := [[2, 1, 2], [1, 3, 1], [2, 1, 2]]

/-- Row-major enumeration of the nested loops
`for r in range(n): for c in range(n)`. -/
def allCells (n : Nat) : List (Nat × Nat) :=
  (List.range n).flatMap (fun r => (List.range n).map (fun c => (r, c)))

/-- `evaluate_position`: positional weights summed with sign by owner. -/
def evaluate_position (g : Game) : Int :=
  let ai_label := g.current_player.label
  let opp_label := if ai_label == "X" then "O" else "X"
  (allCells g.board_size).foldl
    (fun score rc =>
      let label := (getCell g rc.1 rc.2).label
      let cell_value : Int :=
        if rc.1 < 3 && rc.2 < 3 then (POSITION_WEIGHTS.getD rc.1 []).getD rc.2 0 else 0
      if label == ai_label then score + cell_value
      else if label == opp_label then score - cell_value
      else score) 0

/-- `evaluate_line`: count marks of each player along the combo and
score the line. -/
def evaluate_line (g : Game) (combo : List (Int × Int)) : Int :=
  let ai_label := g.current_player.label
  let opp_label := if ai_label == "X" then "O" else "X"
  let ai_count : Nat := (comboLabels g combo).countP (fun l => l == ai_label)
  let opp_count : Nat := (comboLabels g combo).countP (fun l => l == opp_label)
  if ai_count > 0 && opp_count > 0 then 0
  else if ai_count > 0 then
    (if ai_count == 3 then 100 else if ai_count == 2 then 10 else 1)
  else if opp_count > 0 then
    (if opp_count == 3 then -100 else if opp_count == 2 then -10 else -1)
  else 0

/-- `evaluate_board`: line-threat sum plus the positional term. -/
def evaluate_board (g : Game) : Int :=
  (g.winning_combos.foldl (fun s combo => s + evaluate_line g combo) 0) + evaluate_position g

/-- `_check_winner_for_label`: does `label` hold some full combo? -/
def _check_winner_for_label (g : Game) (label : String) : Bool :=
  g.winning_combos.any (fun combo => combo.all (fun p => (getCellI g p.1 p.2).label == label))

/-- `_board_full`: no empty cell on the current board. -/
def _board_full (g : Game) : Bool :=
  g.current_moves.all (fun row => row.all (fun m => !(m.label == "")))

/-- The maximizing expansion loop of `_minmax`, state threaded: place
the candidate mark, recurse (through `recur`, which closes over the
fixed `beta`), undo the placement, fold with `max`, raise `alpha`, and
return early on `beta <= alpha`. -/
def abLoopMax (recur : Game → Int → Int × Game) (lab : String) (beta : Int) :
    List (Nat × Nat) → Game → Int → Int → Int × Game
  | [], g, best, _alpha => (best, g)
  | rc :: rest, g, best, alpha =>
    if (getCell g rc.1 rc.2).label == "" then
      let g1 := setCell g rc.1 rc.2 ⟨rc.1, rc.2, lab⟩
      let p := recur g1 alpha
      let g3 := setCell p.2 rc.1 rc.2 ⟨rc.1, rc.2, ""⟩
      let best2 := max best p.1
      let alpha2 := max alpha best2
      if beta ≤ alpha2 then (best2, g3)
      else abLoopMax recur lab beta rest g3 best2 alpha2
    else abLoopMax recur lab beta rest g best alpha

/-- The minimizing expansion loop of `_minmax`, symmetric to
`abLoopMax` with `min` and the `beta` bound threaded. -/
def abLoopMin (recur : Game → Int → Int × Game) (lab : String) (alpha : Int) :
    List (Nat × Nat) → Game → Int → Int → Int × Game
  | [], g, best, _beta => (best, g)
  | rc :: rest, g, best, beta =>
    if (getCell g rc.1 rc.2).label == "" then
      let g1 := setCell g rc.1 rc.2 ⟨rc.1, rc.2, lab⟩
      let p := recur g1 beta
      let g3 := setCell p.2 rc.1 rc.2 ⟨rc.1, rc.2, ""⟩
      let best2 := min best p.1
      let beta2 := min beta best2
      if beta2 ≤ alpha then (best2, g3)
      else abLoopMin recur lab alpha rest g3 best2 beta2
    else abLoopMin recur lab alpha rest g best beta

/-- `_minmax`: terminal checks, depth cutoff, then the alpha-beta
expansion loops.  The board mutation of the source is modelled by
threading the game state through the recursion (second component). -/
def _minmax (ai_label opponent_label : String) :
    Nat → Game → Bool → Int → Int → Int × Game
  | depth, g, is_maximizing, alpha, beta =>
    if _check_winner_for_label g ai_label then ((1000 : Int) + depth, g)
    else if _check_winner_for_label g opponent_label then (-1000 - (depth : Int), g)
    else if _board_full g then (0, g)
    else
      match depth with
      | 0 => (evaluate_board g, g)
      | d + 1 =>
        if is_maximizing then
          abLoopMax (fun g1 a => _minmax ai_label opponent_label d g1 false a beta)
            ai_label beta (allCells g.board_size) g (-999) alpha
        else
          abLoopMin (fun g1 b => _minmax ai_label opponent_label d g1 true alpha b)
            opponent_label alpha (allCells g.board_size) g 999 beta

/-- The top-level loop of `get_minmax_move`: try each empty cell as the
first move of the searcher, keep the strictly best score and its cell,
and raise `alpha` on improvement.  No early return at the top level. -/
def topLoop (recur : Game → Int → Int × Game) (lab : String) :
    List (Nat × Nat) → Game → Int → Option (Nat × Nat) → Int → Option (Nat × Nat) × Game
  | [], g, _best, best_move, _alpha => (best_move, g)
  | rc :: rest, g, best, best_move, alpha =>
    if (getCell g rc.1 rc.2).label == "" then
      let g1 := setCell g rc.1 rc.2 ⟨rc.1, rc.2, lab⟩
      let p := recur g1 alpha
      let g3 := setCell p.2 rc.1 rc.2 ⟨rc.1, rc.2, ""⟩
      if best < p.1 then topLoop recur lab rest g3 p.1 (some rc) (max alpha p.1)
      else topLoop recur lab rest g3 best best_move alpha
    else topLoop recur lab rest g best best_move alpha

/-- `get_minmax_move` with the `max_depth` configuration knob exposed
(the source fixes `max_depth = 4` under a `Configuration` comment).
Returns the chosen move and the post-call game state. -/
def get_minmax_move_depth (g : Game) (max_depth : Nat) : Option (Nat × Nat) × Game :=
  let ai_label := g.current_player.label
  let opponent_label := if ai_label == "X" then "O" else "X"
  topLoop (fun g1 a => _minmax ai_label opponent_label (max_depth - 1) g1 false a 9999)
    ai_label (allCells g.board_size) g (-9999) none (-9999)

/-- `get_minmax_move` exactly as in the source: `max_depth = 4`. -/
def get_minmax_move (g : Game) : Option (Nat × Nat) × Game :=
  get_minmax_move_depth g 4

/-! ## Well-formedness of reachable states -/

/-- Invariants of every reachable board: a 3×3 grid whose cells carry
their own coordinates (as `_setup_board` creates and every writer
maintains). -/
def WfBoard (g : Game) : Prop :=
  g.board_size = 3 ∧
  g.current_moves.length = 3 ∧
  (∀ row ∈ g.current_moves, row.length = 3) ∧
  (∀ rc ∈ allCells 3, (getCell g rc.1 rc.2).row = rc.1 ∧ (getCell g rc.1 rc.2).col = rc.2)

instance (g : Game) : Decidable (WfBoard g) := by
  unfold WfBoard; infer_instance

theorem mem_allCells {n r c : Nat} : (r, c) ∈ allCells n ↔ r < n ∧ c < n := by
  simp [allCells]

theorem mem_allCells2 {n : Nat} {rc : Nat × Nat} :
    rc ∈ allCells n ↔ rc.1 < n ∧ rc.2 < n := by
  cases rc; simp [allCells]

/-- Coordinate coherence of a well-formed board, pointwise form. -/
theorem wf_coords {g : Game} (hg : WfBoard g) {r c : Nat} (hr : r < 3) (hc : c < 3) :
    (getCell g r c).row = r ∧ (getCell g r c).col = c :=
  hg.2.2.2 (r, c) (mem_allCells.mpr ⟨hr, hc⟩)

/-- The canonical 3×3 winning-combo table: three rows, three columns,
the main diagonal, the anti-diagonal, in that order. -/
def WINNING_COMBOS_3 : List (List (Int × Int)) :=
  [[(0, 0), (0, 1), (0, 2)], [(1, 0), (1, 1), (1, 2)], [(2, 0), (2, 1), (2, 2)],
   [(0, 0), (1, 0), (2, 0)], [(0, 1), (1, 1), (2, 1)], [(0, 2), (1, 2), (2, 2)],
   [(0, 0), (1, 1), (2, 2)], [(0, 2), (1, 1), (2, 0)]]

/-- A helper to build concrete boards from label grids (used by the
concrete instances below). -/
def boardOfLabels (l : List (List String)) : Board :=
  l.mapIdx (fun r row => row.mapIdx (fun c s => ⟨r, c, s⟩))

/-- A helper to build a concrete well-formed game state. -/
def gameOf (l : List (List String)) (cur : String) (hw : Bool := false) : Game :=
  { players := DEFAULT_PLAYERS
    player_idx := 0
    gamemode := "PvP"
    board_size := 3
    current_player := ⟨cur, "green", true⟩
    winner_combo := []
    current_moves := boardOfLabels l
    has_winner := hw
    winning_combos := WINNING_COMBOS_3 }

/-! ## Basic board lemmas -/

theorem pyIndex_natCast (l : List α) (n : Nat) : pyIndex l (n : Int) = l[n]? := by
  simp [pyIndex]

theorem getCell_eq {g : Game} {r c : Nat} {row : List Move} {m : Move}
    (h1 : g.current_moves[r]? = some row) (h2 : row[c]? = some m) :
    getCell g r c = m := by
  simp [getCell, h1, h2]

/-- In a well-formed game, row `r < 3` is present with length 3. -/
theorem wf_row {g : Game} (hg : WfBoard g) {r : Nat} (hr : r < 3) :
    ∃ row, g.current_moves[r]? = some row ∧ row.length = 3 := by
  obtain ⟨-, hlen, hrows, -⟩ := hg
  have hr' : r < g.current_moves.length := by omega
  refine ⟨g.current_moves[r], List.getElem?_eq_getElem hr', ?_⟩
  exact hrows _ (List.getElem_mem hr')

theorem wf_cell {g : Game} (hg : WfBoard g) {r c : Nat} (hr : r < 3) (hc : c < 3) :
    ∃ row, g.current_moves[r]? = some row ∧ row.length = 3 ∧
      row[c]? = some (getCell g r c) := by
  obtain ⟨row, hrow, hlen⟩ := wf_row hg hr
  have hc' : c < row.length := by omega
  refine ⟨row, hrow, hlen, ?_⟩
  have h2 : row[c]? = some row[c] := List.getElem?_eq_getElem hc'
  rw [h2, getCell_eq hrow h2]

theorem setCell_board_size (g : Game) (r c : Nat) (m : Move) :
    (setCell g r c m).board_size = g.board_size := rfl

theorem setCell_has_winner (g : Game) (r c : Nat) (m : Move) :
    (setCell g r c m).has_winner = g.has_winner := rfl

theorem setCell_winner_combo (g : Game) (r c : Nat) (m : Move) :
    (setCell g r c m).winner_combo = g.winner_combo := rfl

theorem setCell_winning_combos (g : Game) (r c : Nat) (m : Move) :
    (setCell g r c m).winning_combos = g.winning_combos := rfl

theorem setCell_current_player (g : Game) (r c : Nat) (m : Move) :
    (setCell g r c m).current_player = g.current_player := rfl

/-- Writing back the very element a list holds changes nothing. -/
theorem list_set_self {l : List α} {i : Nat} {a : α} (h : l[i]? = some a) :
    l.set i a = l := by
  induction l generalizing i with
  | nil => simp at h
  | cons x xs ih =>
    cases i with
    | zero => simp_all
    | succ j => simp at h; simp [List.set, ih h]

theorem getCell_setCell_self {g : Game} (hg : WfBoard g) {r c : Nat}
    (hr : r < 3) (hc : c < 3) (m : Move) :
    getCell (setCell g r c m) r c = m := by
  obtain ⟨row, hrow, hlen, -⟩ := wf_cell hg hr hc
  have hr' : r < g.current_moves.length := by
    rcases hg with ⟨-, h2, -⟩; omega
  have hc' : c < row.length := by omega
  have hrowD : g.current_moves.getD r [] = row := by
    simp [List.getD, hrow]
  simp [setCell, getCell, hrowD, hrow, List.getElem?_set_self hr', List.getElem?_set_self hc']

theorem getCell_setCell_ne {g : Game} (hg : WfBoard g) {r c r' c' : Nat}
    (hr : r < 3) (hc : c < 3) (m : Move) (hne : (r', c') ≠ (r, c)) :
    getCell (setCell g r c m) r' c' = getCell g r' c' := by
  obtain ⟨row, hrow, hlen, -⟩ := wf_cell hg hr hc
  have hr' : r < g.current_moves.length := by rcases hg with ⟨-, h2, -⟩; omega
  have hrowD : g.current_moves.getD r [] = row := by simp [List.getD, hrow]
  by_cases hrr : r' = r
  · subst hrr
    have hcc : c ≠ c' := by intro h; exact hne (by simp [h])
    simp [setCell, getCell, hrowD, List.getElem?_set_self hr', hrow,
      List.getElem?_set_ne hcc]
  · simp [setCell, getCell, List.getElem?_set_ne (Ne.symm hrr)]

/-- Undoing a write restores the original state when the original cell
is the coherent empty move (as on every well-formed board). -/
theorem setCell_restore {g : Game} (hg : WfBoard g) {r c : Nat}
    (hr : r < 3) (hc : c < 3)
    (hcell : getCell g r c = ⟨r, c, ""⟩) (m : Move) :
    setCell (setCell g r c m) r c ⟨r, c, ""⟩ = g := by
  obtain ⟨row, hrow, hlen, hget⟩ := wf_cell hg hr hc
  have hr' : r < g.current_moves.length := by rcases hg with ⟨-, h2, -⟩; omega
  have hc' : c < row.length := by omega
  have hrowD : g.current_moves.getD r [] = row := by simp [List.getD, hrow]
  simp only [setCell, hrowD]
  have hsetD : (g.current_moves.set r (row.set c m)).getD r [] = row.set c m := by
    simp [List.getD, List.getElem?_set_self hr']
  rw [hsetD, List.set_set, List.set_set]
  have : row.set c (⟨r, c, ""⟩ : Move) = row := by
    rw [hcell] at hget; exact list_set_self hget
  rw [this, list_set_self hrow]

/-- `setCell` with a coherent move preserves well-formedness. -/
theorem wfBoard_setCell {g : Game} (hg : WfBoard g) {r c : Nat}
    (hr : r < 3) (hc : c < 3) (lab : String) :
    WfBoard (setCell g r c ⟨r, c, lab⟩) := by
  obtain ⟨h1, h2, h3, h4⟩ := hg
  obtain ⟨row, hrow, hlen⟩ := wf_row ⟨h1, h2, h3, h4⟩ hr
  have hrowD : g.current_moves.getD r [] = row := by simp [List.getD, hrow]
  refine ⟨h1, ?_, ?_, ?_⟩
  · simp [setCell, h2]
  · intro row2 hrow2
    simp only [setCell, hrowD] at hrow2
    rcases List.mem_or_eq_of_mem_set hrow2 with h | h
    · exact h3 _ h
    · subst h; simp [hlen]
  · intro rc hrc
    by_cases he : rc = (r, c)
    · subst he
      rw [getCell_setCell_self ⟨h1, h2, h3, h4⟩ hr hc]
      exact ⟨rfl, rfl⟩
    · rw [getCell_setCell_ne ⟨h1, h2, h3, h4⟩ hr hc _ ?_]
      · exact h4 rc hrc
      · cases rc; simpa using he

end TTT

namespace TTT

theorem getCellI_natCast (g : Game) (r c : Nat) :
    getCellI g (r : Int) (c : Int) = getCell g r c := by
  simp [getCellI, getCell, pyIndex_natCast]

/-- The empty 3×3 game with the automated player (O) to move. -/
def emptyG : Game := gameOf [["", "", ""], ["", "", ""], ["", "", ""]] "O"

/-- A game where X is to move (used to exercise player preservation). -/
def midG : Game := gameOf [["X", "", ""], ["", "O", ""], ["", "", ""]] "X"

/-- C6: for every in-bounds move, `is_valid_move` returns `True` iff no
winner is recorded and the target cell is empty; the result does not
depend on the move's mark. -/
theorem claim_C6 (g : Game) (r c : Nat) (lab lab2 : String)
    (hg : WfBoard g) (hr : r < 3) (hc : c < 3) :
    (is_valid_move g ⟨r, c, lab⟩ = some true ↔
      g.has_winner = false ∧ (getCell g r c).label = "") ∧
    is_valid_move g ⟨r, c, lab⟩ = is_valid_move g ⟨r, c, lab2⟩ := by
  obtain ⟨row, hrow, hlen, hcell⟩ := wf_cell hg hr hc
  constructor
  · simp [is_valid_move, pyIndex_natCast, hrow, hcell, Bool.and_eq_true,
      Bool.not_eq_true']
  · simp [is_valid_move]

/-- C6 witness: the theorem instantiated at the empty board. -/
theorem claim_C6_witness :
    (is_valid_move emptyG ⟨0, 0, "X"⟩ = some true ↔
      emptyG.has_winner = false ∧ (getCell emptyG 0 0).label = "") ∧
    is_valid_move emptyG ⟨0, 0, "X"⟩ = is_valid_move emptyG ⟨0, 0, "O"⟩ :=
  claim_C6 emptyG 0 0 "X" "O" (by decide) (by decide) (by decide)

/-- C8: the code does not reject out-of-bounds coordinates.  A row of 3
on the 3×3 board raises `IndexError` (modelled by `none`) instead of
returning `False`, and a row of -1 silently wraps to the last row and
the move is accepted as valid. -/
theorem claim_C8 :
    is_valid_move emptyG ⟨3, 0, "X"⟩ = none ∧
    is_valid_move emptyG ⟨-1, 0, "X"⟩ = some true := by
  constructor <;> rfl

/-- C10: `reset_game` empties every cell and clears the winner flag and
combo, but the player to move is left exactly as it was. -/
theorem claim_C10 (g : Game) (hg : WfBoard g) :
    (reset_game g).current_player = g.current_player ∧
    (reset_game g).player_idx = g.player_idx ∧
    (reset_game g).has_winner = false ∧
    (reset_game g).winner_combo = [] ∧
    ∀ r c : Nat, r < 3 → c < 3 → getCell (reset_game g) r c = ⟨r, c, ""⟩ := by
  refine ⟨rfl, rfl, rfl, rfl, ?_⟩
  intro r c hr hc
  obtain ⟨row, hrow, hlen⟩ := wf_row hg hr
  have hc' : c < row.length := by omega
  simp [reset_game, getCell, List.getElem?_mapIdx, hrow, List.getElem?_eq_getElem hc']

/-- C10 witness: resetting a game in which O (not the session's first
player) is to move keeps O to move. -/
theorem claim_C10_witness :
    (reset_game emptyG).current_player = emptyG.current_player ∧
    (reset_game emptyG).player_idx = emptyG.player_idx ∧
    (reset_game emptyG).has_winner = false ∧
    (reset_game emptyG).winner_combo = [] ∧
    ∀ r c : Nat, r < 3 → c < 3 → getCell (reset_game emptyG) r c = ⟨r, c, ""⟩ :=
  claim_C10 emptyG (by decide)

end TTT

namespace TTT

theorem pySet_natCast (l : List α) (n : Nat) (a : α) (h : n < l.length) :
    pySet l (n : Int) a = some (l.set n a) := by
  simp [pySet, h]

/-- C7: an in-bounds move onto an occupied cell, or any in-bounds move
once a winner is recorded, is rejected as `invalidMove` with the state
untouched; an in-bounds move onto an empty cell with no winner recorded
is always accepted. -/
theorem claim_C7 (g : Game) (r c : Nat) (lab : String)
    (hg : WfBoard g) (hr : r < 3) (hc : c < 3) :
    ((getCell g r c).label ≠ "" ∨ g.has_winner = true →
      submit_move g ⟨r, c, lab⟩ = .invalidMove g) ∧
    (g.has_winner = false → (getCell g r c).label = "" →
      ∃ g2, submit_move g ⟨r, c, lab⟩ = .accepted g2) := by
  obtain ⟨row, hrow, hlen, hcell⟩ := wf_cell hg hr hc
  have hr' : r < g.current_moves.length := by rcases hg with ⟨-, h2, -⟩; omega
  have hc' : c < row.length := by omega
  constructor
  · intro h
    rcases h with h | h
    · have : ((getCell g r c).label == "") = false := by
        simpa using h
      simp [submit_move, is_valid_move, pyIndex_natCast, hrow, hcell, this]
    · simp [submit_move, is_valid_move, pyIndex_natCast, hrow, hcell, h]
  · intro hw he
    have hvalid : is_valid_move g ⟨r, c, lab⟩ = some true := by
      simp [is_valid_move, pyIndex_natCast, hrow, hcell, hw, he]
    have hproc : process_move g ⟨r, c, lab⟩ =
        some (scanCombos
          { g with current_moves := g.current_moves.set r (row.set c ⟨r, c, lab⟩) }) := by
      simp [process_move, pyIndex_natCast, hrow, pySet_natCast _ _ _ hc',
        pySet_natCast _ _ _ hr']
    refine ⟨scanCombos
      { g with current_moves := g.current_moves.set r (row.set c ⟨r, c, lab⟩) }, ?_⟩
    simp [submit_move, hvalid, hproc]

/-- C7 witness: occupied-cell rejection, post-win rejection, and a
successful empty-cell move, all at concrete states. -/
theorem claim_C7_witness :
    submit_move midG ⟨0, 0, "O"⟩ = .invalidMove midG ∧
    submit_move (gameOf [["X", "", ""], ["", "O", ""], ["", "", ""]] "X" true)
      ⟨0, 1, "X"⟩ =
      .invalidMove (gameOf [["X", "", ""], ["", "O", ""], ["", "", ""]] "X" true) ∧
    ∃ g2, submit_move midG ⟨0, 1, "X"⟩ = .accepted g2 := by
  refine ⟨?_, ?_, ?_⟩
  · exact (claim_C7 midG 0 0 "O" (by decide) (by decide) (by decide)).1
      (by left; decide)
  · exact (claim_C7 _ 0 1 "X" (by decide) (by decide) (by decide)).1
      (by right; decide)
  · exact (claim_C7 midG 0 1 "X" (by decide) (by decide) (by decide)).2
      (by decide) (by decide)

end TTT

namespace TTT

/-- `find?` returns the head of the first satisfying decomposition. -/
theorem find?_first {p : α → Bool} {l₁ l₂ : List α} {a : α}
    (ha : p a = true) (h1 : ∀ x ∈ l₁, p x = false) :
    (l₁ ++ a :: l₂).find? p = some a := by
  induction l₁ with
  | nil => simp [List.find?_cons, ha]
  | cons x xs ih =>
    have hx := h1 x (by simp)
    simp only [List.cons_append, List.find?_cons, hx]
    exact ih (fun y hy => h1 y (by simp [hy]))

/-- A duplicate-free nonempty list whose members all equal `a` is `[a]`. -/
theorem nodup_all_eq {l : List α} {a : α} (hn : l.Nodup) (hne : l ≠ [])
    (hall : ∀ x ∈ l, x = a) : l = [a] := by
  cases l with
  | nil => exact absurd rfl hne
  | cons x xs =>
    have hx : x = a := hall x (by simp)
    subst hx
    cases xs with
    | nil => rfl
    | cons y ys =>
      have hy : y = x := hall y (by simp)
      subst hy
      simp at hn

/-- The win test of `process_move` holds exactly when the combo is
nonempty and all its cells hold one identical non-empty mark. -/
theorem comboIsWin_iff (g : Game) (combo : List (Int × Int)) :
    comboIsWin g combo = true ↔
      combo ≠ [] ∧ ∃ lab, lab ≠ "" ∧ ∀ p ∈ combo, (getCellI g p.1 p.2).label = lab := by
  unfold comboIsWin
  set L := comboLabels g combo with hL
  constructor
  · intro h
    simp only [Bool.and_eq_true, beq_iff_eq, Bool.not_eq_true'] at h
    obtain ⟨h1, h2⟩ := h
    obtain ⟨a, ha⟩ := List.length_eq_one.mp h1
    have hmem : ∀ x ∈ L, x = a := by
      intro x hx
      have : x ∈ L.dedup := List.mem_dedup.mpr hx
      rw [ha] at this
      simpa using this
    have haL : a ∈ L := by
      have : a ∈ L.dedup := by rw [ha]; simp
      exact List.mem_dedup.mp this
    have hcne : combo ≠ [] := by
      intro hnil
      rw [hL] at haL
      simp [comboLabels, hnil] at haL
    refine ⟨hcne, a, ?_, ?_⟩
    · intro hae
      subst hae
      rw [ha] at h2
      simp at h2
    · intro p hp
      exact hmem _ (by rw [hL]; exact List.mem_map.mpr ⟨p, hp, rfl⟩)
  · rintro ⟨hcne, a, hane, hall⟩
    have hallL : ∀ x ∈ L, x = a := by
      rw [hL]
      intro x hx
      obtain ⟨p, hp, hpx⟩ := List.mem_map.mp hx
      rw [← hpx]
      exact hall p hp
    have hLne : L ≠ [] := by
      rw [hL]
      cases combo with
      | nil => exact absurd rfl hcne
      | cons q qs => simp [comboLabels]
    have hded : L.dedup = [a] := by
      refine nodup_all_eq (List.nodup_dedup L) ?_ ?_
      · intro h
        exact hLne ((List.dedup_eq_nil L).mp h)
      · intro x hx
        exact hallL x (List.mem_dedup.mp hx)
    simp [hded, hane, Ne.symm hane]

end TTT

namespace TTT

/-- `scanCombos` never touches the board, only the winner flags. -/
theorem scanCombos_current_moves (g : Game) :
    (scanCombos g).current_moves = g.current_moves := by
  unfold scanCombos
  cases g.winning_combos.find? (fun combo => comboIsWin g combo) <;> rfl

/-- C9: `process_move` writes the mark into its cell and scans the
winning-combo table, which `_get_winning_combos` produces in canonical
order (rows, columns, main diagonal, anti-diagonal); a combo wins iff
all its cells hold one identical non-empty mark; the first winning combo
in table order sets the flag and is recorded, and when none wins the
flags are untouched. -/
theorem claim_C9 (g : Game) (r c : Nat) (lab : String) (hg : WfBoard g)
    (hcombos : g.winning_combos = WINNING_COMBOS_3) (hr : r < 3) (hc : c < 3) :
    _get_winning_combos (setup_moves 3) = WINNING_COMBOS_3 ∧
    ∃ g2, process_move g ⟨r, c, lab⟩ = some g2 ∧
      g2.current_moves = (setCell g r c ⟨r, c, lab⟩).current_moves ∧
      (∀ combo, comboIsWin (setCell g r c ⟨r, c, lab⟩) combo = true ↔
        (combo ≠ [] ∧ ∃ lab2, lab2 ≠ "" ∧
          ∀ p ∈ combo, (getCellI (setCell g r c ⟨r, c, lab⟩) p.1 p.2).label = lab2)) ∧
      ((∀ combo ∈ WINNING_COMBOS_3,
          comboIsWin (setCell g r c ⟨r, c, lab⟩) combo = false) →
        g2.has_winner = g.has_winner ∧ g2.winner_combo = g.winner_combo) ∧
      (∀ l₁ combo l₂, WINNING_COMBOS_3 = l₁ ++ combo :: l₂ →
        comboIsWin (setCell g r c ⟨r, c, lab⟩) combo = true →
        (∀ x ∈ l₁, comboIsWin (setCell g r c ⟨r, c, lab⟩) x = false) →
        g2.has_winner = true ∧ g2.winner_combo = combo) := by
  obtain ⟨row, hrow, hlen, hcell⟩ := wf_cell hg hr hc
  have hr' : r < g.current_moves.length := by rcases hg with ⟨-, h2, -⟩; omega
  have hc' : c < row.length := by omega
  have hrowD : g.current_moves.getD r [] = row := by simp [List.getD, hrow]
  have hboard : (setCell g r c (⟨r, c, lab⟩ : Move)).current_moves
      = g.current_moves.set r (row.set c ⟨r, c, lab⟩) := by
    simp [setCell, hrow]
  have hmid : ({ g with current_moves := g.current_moves.set r (row.set c ⟨r, c, lab⟩) }
      : Game) = setCell g r c ⟨r, c, lab⟩ := by
    simp [setCell, hrow]
  have hproc : process_move g ⟨r, c, lab⟩ =
      some (scanCombos (setCell g r c ⟨r, c, lab⟩)) := by
    simp [process_move, pyIndex_natCast, hrow, pySet_natCast _ _ _ hc',
      pySet_natCast _ _ _ hr', hmid]
  refine ⟨by decide, scanCombos (setCell g r c ⟨r, c, lab⟩), hproc, ?_, ?_, ?_⟩
  · rw [scanCombos_current_moves]
  · intro combo
    exact comboIsWin_iff _ combo
  · constructor
    · intro hnone
      have : (setCell g r c ⟨r, c, lab⟩).winning_combos.find?
          (fun combo => comboIsWin (setCell g r c ⟨r, c, lab⟩) combo) = none := by
        rw [List.find?_eq_none]
        intro x hx
        simp [hnone x (by rwa [setCell_winning_combos, hcombos] at hx)]
      unfold scanCombos
      rw [this]
      exact ⟨rfl, rfl⟩
    · intro l₁ combo l₂ hdec hwin hprev
      have : (setCell g r c ⟨r, c, lab⟩).winning_combos.find?
          (fun x => comboIsWin (setCell g r c ⟨r, c, lab⟩) x) = some combo := by
        rw [setCell_winning_combos, hcombos, hdec]
        exact find?_first hwin hprev
      unfold scanCombos
      rw [this]
      exact ⟨rfl, rfl⟩

/-- A board on which playing X at (0,0) completes the first row and the
first column simultaneously. -/
def doubleG : Game :=
  gameOf [["", "X", "X"], ["X", "O", "O"], ["X", "O", ""]] "X"

/-- C9 witness: when one placement completes two lines at once, the
row (first in canonical scan order) is the recorded winning combo. -/
theorem claim_C9_witness :
    ∃ g2, process_move doubleG ⟨0, 0, "X"⟩ = some g2 ∧
      g2.has_winner = true ∧ g2.winner_combo = [(0, 0), (0, 1), (0, 2)] := by
  obtain ⟨-, g2, hp, -, -, -, hfirst⟩ :=
    claim_C9 doubleG 0 0 "X" (by decide) (by decide) (by decide) (by decide)
  obtain ⟨hw, hcombo⟩ := hfirst [] [(0, 0), (0, 1), (0, 2)]
    [[(1, 0), (1, 1), (1, 2)], [(2, 0), (2, 1), (2, 2)],
     [(0, 0), (1, 0), (2, 0)], [(0, 1), (1, 1), (2, 1)], [(0, 2), (1, 2), (2, 2)],
     [(0, 0), (1, 1), (2, 2)], [(0, 2), (1, 1), (2, 0)]]
    (by decide) (by decide) (by simp)
  exact ⟨g2, hp, hw, hcombo⟩

end TTT

namespace TTT

/-- The claim's positional weight table: 3 for the center, 2 for a
corner, 1 for an edge midpoint. -/
def specWeight (r c : Nat) : Int :=
  if r = 1 ∧ c = 1 then 3
  else if (r = 0 ∨ r = 2) ∧ (c = 0 ∨ c = 2) then 2
  else 1

/-- The claim's positional term: each cell adds its weight when held by
the automated player's mark and subtracts it when held by the
opponent's. -/
def specPositional (g : Game) : Int :=
  let ai := g.current_player.label
  let opp := if ai == "X" then "O" else "X"
  (allCells 3).foldl
    (fun s rc =>
      let lab := (getCell g rc.1 rc.2).label
      if lab == ai then s + specWeight rc.1 rc.2
      else if lab == opp then s - specWeight rc.1 rc.2
      else s) 0

/-- The claim's line-threat score: 0 for a blocked line, otherwise
±100/±10/±1 keyed by the exclusive owner's count. -/
def specLineScore (g : Game) (combo : List (Int × Int)) : Int :=
  let ai := g.current_player.label
  let opp := if ai == "X" then "O" else "X"
  let aiN := (comboLabels g combo).countP (fun l => l == ai)
  let oppN := (comboLabels g combo).countP (fun l => l == opp)
  if aiN > 0 ∧ oppN > 0 then 0
  else if aiN = 3 then 100
  else if aiN = 2 then 10
  else if aiN = 1 then 1
  else if oppN = 3 then -100
  else if oppN = 2 then -10
  else if oppN = 1 then -1
  else 0

/-- The claim's evaluation: positional term plus the line-threat term
over the 8 winning combos. -/
def specEvaluate (g : Game) : Int :=
  specPositional g + WINNING_COMBOS_3.foldl (fun s cb => s + specLineScore g cb) 0

theorem lineScore_cases (aiN oppN : Nat) (ha : aiN ≤ 3) (hb : oppN ≤ 3) :
    (if aiN > 0 && oppN > 0 then (0 : Int)
     else if aiN > 0 then (if aiN == 3 then 100 else if aiN == 2 then 10 else 1)
     else if oppN > 0 then (if oppN == 3 then -100 else if oppN == 2 then -10 else -1)
     else 0)
    = (if aiN > 0 ∧ oppN > 0 then 0
       else if aiN = 3 then 100
       else if aiN = 2 then 10
       else if aiN = 1 then 1
       else if oppN = 3 then -100
       else if oppN = 2 then -10
       else if oppN = 1 then -1
       else 0) := by
  interval_cases aiN <;> interval_cases oppN <;> rfl

theorem evaluate_line_eq_spec (g : Game) (combo : List (Int × Int))
    (h3 : combo.length = 3) :
    evaluate_line g combo = specLineScore g combo := by
  have hlen : (comboLabels g combo).length = 3 := by simp [comboLabels, h3]
  have ha : (comboLabels g combo).countP (fun l => l == g.current_player.label) ≤ 3 :=
    hlen ▸ List.countP_le_length _
  have hb : (comboLabels g combo).countP
      (fun l => l == if g.current_player.label == "X" then "O" else "X") ≤ 3 :=
    hlen ▸ List.countP_le_length _
  simp only [evaluate_line, specLineScore]
  exact lineScore_cases _ _ ha hb

theorem evaluate_position_eq_spec (g : Game) (hg : WfBoard g) :
    evaluate_position g = specPositional g := by
  unfold evaluate_position specPositional
  rw [hg.1]
  refine List.foldl_ext _ _ _ ?_
  intro s rc hrc
  have hw : ∀ p ∈ allCells 3,
      (if p.1 < 3 && p.2 < 3 then (POSITION_WEIGHTS.getD p.1 []).getD p.2 0 else 0)
        = specWeight p.1 p.2 := by decide
  rw [hw rc hrc]

/-- C5: `evaluate_board` is the sum of the claim's positional term and
the claim's line-threat term over the canonical combos. -/
theorem claim_C5 (g : Game) (hg : WfBoard g)
    (hcombos : g.winning_combos = WINNING_COMBOS_3) :
    evaluate_board g = specEvaluate g := by
  unfold evaluate_board specEvaluate
  rw [hcombos, evaluate_position_eq_spec g hg, Int.add_comm]
  congr 1
  refine List.foldl_ext _ _ _ ?_
  intro s cb hcb
  have h3 : ∀ x ∈ WINNING_COMBOS_3, x.length = 3 := by decide
  rw [evaluate_line_eq_spec g cb (h3 cb hcb)]

/-- C5 witness: the theorem instantiated at a concrete mid-game board,
with the common value computed. -/
theorem claim_C5_witness :
    evaluate_board (gameOf [["X", "", "X"], ["", "O", ""], ["O", "", "X"]] "O")
      = specEvaluate (gameOf [["X", "", "X"], ["", "O", ""], ["O", "", "X"]] "O") ∧
    evaluate_board (gameOf [["X", "", "X"], ["", "O", ""], ["O", "", "X"]] "O") = -19 :=
  ⟨claim_C5 _ (by decide) (by decide), by decide⟩

end TTT

namespace TTT

/-- C3: in `_minmax`, the terminal checks precede the depth cutoff and
the expansion, in the order: maximizer's line (`1000 + depth`),
minimizer's line (`-1000 - depth`), full board (`0`), and only then the
`depth == 0` heuristic cutoff. -/
theorem claim_C3 (ai opp : String) (depth : Nat) (g : Game) (mx : Bool) (a b : Int) :
    (_check_winner_for_label g ai = true →
      _minmax ai opp depth g mx a b = ((1000 : Int) + depth, g)) ∧
    (_check_winner_for_label g ai = false → _check_winner_for_label g opp = true →
      _minmax ai opp depth g mx a b = (-1000 - (depth : Int), g)) ∧
    (_check_winner_for_label g ai = false → _check_winner_for_label g opp = false →
      _board_full g = true → _minmax ai opp depth g mx a b = (0, g)) ∧
    (_check_winner_for_label g ai = false → _check_winner_for_label g opp = false →
      _board_full g = false → depth = 0 →
      _minmax ai opp depth g mx a b = (evaluate_board g, g)) := by
  refine ⟨?_, ?_, ?_, ?_⟩
  · intro h1
    rw [_minmax.eq_def]
    simp [h1]
  · intro h1 h2
    rw [_minmax.eq_def]
    simp [h1, h2]
  · intro h1 h2 h3
    rw [_minmax.eq_def]
    simp [h1, h2, h3]
  · intro h1 h2 h3 h4
    subst h4
    rw [_minmax.eq_def]
    simp [h1, h2, h3]

/-- A board where O has completed the top row. -/
def winOG : Game := gameOf [["O", "O", "O"], ["X", "X", ""], ["", "", ""]] "O"

/-- A board where X has completed the left column. -/
def winXG : Game := gameOf [["X", "O", "O"], ["X", "", ""], ["X", "", ""]] "O"

/-- A drawn full board. -/
def drawG : Game :=
  gameOf [["X", "O", "X"], ["X", "O", "O"], ["O", "X", "X"]] "O"

/-- C3 witness: the four terminal/cutoff cases at concrete states. -/
theorem claim_C3_witness :
    _minmax "O" "X" 2 winOG true (-9999) 9999 = ((1000 : Int) + (2 : Nat), winOG) ∧
    _minmax "O" "X" 2 winXG true (-9999) 9999 = (-1000 - ((2 : Nat) : Int), winXG) ∧
    _minmax "O" "X" 2 drawG true (-9999) 9999 = (0, drawG) ∧
    _minmax "O" "X" 0 midG false (-9999) 9999 = (evaluate_board midG, midG) :=
  ⟨(claim_C3 "O" "X" 2 winOG true (-9999) 9999).1 (by decide),
   (claim_C3 "O" "X" 2 winXG true (-9999) 9999).2.1 (by decide) (by decide),
   (claim_C3 "O" "X" 2 drawG true (-9999) 9999).2.2.1 (by decide) (by decide) (by decide),
   (claim_C3 "O" "X" 0 midG false (-9999) 9999).2.2.2 (by decide) (by decide)
     (by decide) rfl⟩

end TTT

namespace TTT

theorem move_eq_mk {m : Move} {r c : Int} {l : String}
    (h1 : m.row = r) (h2 : m.col = c) (h3 : m.label = l) : m = ⟨r, c, l⟩ := by
  subst h1; subst h2; subst h3; rfl

/-- On a well-formed board, a cell that reads as empty is exactly the
coherent empty move. -/
theorem empty_cell_eq {g : Game} (hg : WfBoard g) {r c : Nat} (hr : r < 3) (hc : c < 3)
    (h : ((getCell g r c).label == "") = true) :
    getCell g r c = ⟨r, c, ""⟩ :=
  move_eq_mk (wf_coords hg hr hc).1 (wf_coords hg hr hc).2 (by simpa using h)

/-- The maximizing loop restores the board it was given: each iteration
places, recurses (which restores by hypothesis), and undoes. -/
theorem abLoopMax_state {recur : Game → Int → Int × Game} {lab : String} {beta : Int}
    (hrec : ∀ g1 a, WfBoard g1 → (recur g1 a).2 = g1) :
    ∀ (cells : List (Nat × Nat)) (g : Game) (best alpha : Int),
      cells ⊆ allCells 3 → WfBoard g →
      (abLoopMax recur lab beta cells g best alpha).2 = g := by
  intro cells
  induction cells with
  | nil => intro g best alpha _ _; rfl
  | cons rc rest ih =>
    intro g best alpha hsub hg
    have hmem : rc ∈ allCells 3 := hsub (List.mem_cons_self rc rest)
    obtain ⟨hr, hc⟩ := mem_allCells2.mp hmem
    have hsub' : rest ⊆ allCells 3 := fun x hx => hsub (by simp [hx])
    rw [abLoopMax]
    by_cases hemp : ((getCell g rc.1 rc.2).label == "") = true
    · have hwf1 : WfBoard (setCell g rc.1 rc.2 ⟨rc.1, rc.2, lab⟩) :=
        wfBoard_setCell hg hr hc lab
      have hback := hrec (setCell g rc.1 rc.2 ⟨rc.1, rc.2, lab⟩) alpha hwf1
      have hundo : setCell
          ((recur (setCell g rc.1 rc.2 ⟨rc.1, rc.2, lab⟩) alpha).2) rc.1 rc.2
            ⟨rc.1, rc.2, ""⟩ = g := by
        rw [hback]
        exact setCell_restore hg hr hc (empty_cell_eq hg hr hc hemp) _
      simp only [hemp, if_true]
      by_cases hcut : beta ≤ max alpha (max best
          (recur (setCell g rc.1 rc.2 ⟨rc.1, rc.2, lab⟩) alpha).1)
      · simp [hcut, hundo]
      · simp only [hcut, if_false]
        rw [hundo]
        exact ih g _ _ hsub' hg
    · simp only [hemp, if_false]
      exact ih g best alpha hsub' hg

/-- Symmetric state restoration for the minimizing loop. -/
theorem abLoopMin_state {recur : Game → Int → Int × Game} {lab : String} {alpha : Int}
    (hrec : ∀ g1 b, WfBoard g1 → (recur g1 b).2 = g1) :
    ∀ (cells : List (Nat × Nat)) (g : Game) (best beta : Int),
      cells ⊆ allCells 3 → WfBoard g →
      (abLoopMin recur lab alpha cells g best beta).2 = g := by
  intro cells
  induction cells with
  | nil => intro g best beta _ _; rfl
  | cons rc rest ih =>
    intro g best beta hsub hg
    have hmem : rc ∈ allCells 3 := hsub (List.mem_cons_self rc rest)
    obtain ⟨hr, hc⟩ := mem_allCells2.mp hmem
    have hsub' : rest ⊆ allCells 3 := fun x hx => hsub (by simp [hx])
    rw [abLoopMin]
    by_cases hemp : ((getCell g rc.1 rc.2).label == "") = true
    · have hwf1 : WfBoard (setCell g rc.1 rc.2 ⟨rc.1, rc.2, lab⟩) :=
        wfBoard_setCell hg hr hc lab
      have hback := hrec (setCell g rc.1 rc.2 ⟨rc.1, rc.2, lab⟩) beta hwf1
      have hundo : setCell
          ((recur (setCell g rc.1 rc.2 ⟨rc.1, rc.2, lab⟩) beta).2) rc.1 rc.2
            ⟨rc.1, rc.2, ""⟩ = g := by
        rw [hback]
        exact setCell_restore hg hr hc (empty_cell_eq hg hr hc hemp) _
      simp only [hemp, if_true]
      by_cases hcut : min beta (min best
          (recur (setCell g rc.1 rc.2 ⟨rc.1, rc.2, lab⟩) beta).1) ≤ alpha
      · simp [hcut, hundo]
      · simp only [hcut, if_false]
        rw [hundo]
        exact ih g _ _ hsub' hg
    · simp only [hemp, if_false]
      exact ih g best beta hsub' hg

/-- `_minmax` leaves the state exactly as found, at every depth. -/
theorem minmax_state (ai opp : String) :
    ∀ (depth : Nat) (g : Game) (mx : Bool) (a b : Int), WfBoard g →
      (_minmax ai opp depth g mx a b).2 = g := by
  intro depth
  induction depth with
  | zero =>
    intro g mx a b _
    rw [_minmax.eq_def]
    by_cases h1 : _check_winner_for_label g ai <;>
      by_cases h2 : _check_winner_for_label g opp <;>
      by_cases h3 : _board_full g <;> simp [h1, h2, h3]
  | succ d ih =>
    intro g mx a b hg
    rw [_minmax.eq_def]
    by_cases h1 : _check_winner_for_label g ai
    · simp [h1]
    by_cases h2 : _check_winner_for_label g opp
    · simp [h1, h2]
    by_cases h3 : _board_full g
    · simp [h1, h2, h3]
    simp only [h1, h2, h3, Bool.false_eq_true, if_false]
    have hcells : allCells g.board_size ⊆ allCells 3 := by
      rw [hg.1]
      exact List.Subset.refl _
    cases mx with
    | true =>
      simp only [if_true]
      exact abLoopMax_state (fun g1 a1 hwf => ih g1 false a1 b hwf)
        _ g (-999) a hcells hg
    | false =>
      simp only [Bool.false_eq_true, if_false]
      exact abLoopMin_state (fun g1 b1 hwf => ih g1 true a b1 hwf)
        _ g 999 b hcells hg

/-- State restoration for the top-level loop. -/
theorem topLoop_state {recur : Game → Int → Int × Game} {lab : String}
    (hrec : ∀ g1 a, WfBoard g1 → (recur g1 a).2 = g1) :
    ∀ (cells : List (Nat × Nat)) (g : Game) (best : Int)
      (bm : Option (Nat × Nat)) (alpha : Int),
      cells ⊆ allCells 3 → WfBoard g →
      (topLoop recur lab cells g best bm alpha).2 = g := by
  intro cells
  induction cells with
  | nil => intro g best bm alpha _ _; rfl
  | cons rc rest ih =>
    intro g best bm alpha hsub hg
    have hmem : rc ∈ allCells 3 := hsub (List.mem_cons_self rc rest)
    obtain ⟨hr, hc⟩ := mem_allCells2.mp hmem
    have hsub' : rest ⊆ allCells 3 := fun x hx => hsub (by simp [hx])
    rw [topLoop]
    by_cases hemp : ((getCell g rc.1 rc.2).label == "") = true
    · have hwf1 : WfBoard (setCell g rc.1 rc.2 ⟨rc.1, rc.2, lab⟩) :=
        wfBoard_setCell hg hr hc lab
      have hback := hrec (setCell g rc.1 rc.2 ⟨rc.1, rc.2, lab⟩) alpha hwf1
      have hundo : setCell
          ((recur (setCell g rc.1 rc.2 ⟨rc.1, rc.2, lab⟩) alpha).2) rc.1 rc.2
            ⟨rc.1, rc.2, ""⟩ = g := by
        rw [hback]
        exact setCell_restore hg hr hc (empty_cell_eq hg hr hc hemp) _
      simp only [hemp, if_true]
      by_cases himp : best < (recur (setCell g rc.1 rc.2 ⟨rc.1, rc.2, lab⟩) alpha).1
      · simp only [himp, if_true]
        rw [hundo]
        exact ih g _ _ _ hsub' hg
      · simp only [himp, if_false]
        rw [hundo]
        exact ih g _ _ _ hsub' hg
    · simp only [hemp, if_false]
      exact ih g best bm alpha hsub' hg

/-- C1: `get_minmax_move` (at the source's depth 4 and at every other
depth limit) returns with the game state — every cell of the board, the
winner flag, and the winning combo — exactly equal to the pre-call
state, regardless of which move (or none) is returned. -/
theorem claim_C1 (g : Game) (hg : WfBoard g) :
    (∀ max_depth : Nat, (get_minmax_move_depth g max_depth).2 = g) ∧
    (get_minmax_move g).2 = g := by
  have hall : ∀ md : Nat, (get_minmax_move_depth g md).2 = g := by
    intro md
    unfold get_minmax_move_depth
    have hcells : allCells g.board_size ⊆ allCells 3 := by
      rw [hg.1]
      exact List.Subset.refl _
    exact topLoop_state
      (fun g1 a hwf => minmax_state _ _ (md - 1) g1 false a 9999 hwf)
      _ g (-9999) none (-9999) hcells hg
  exact ⟨hall, hall 4⟩

/-- The maximizing node used to refute C2 as stated: O to move, X holds
a double threat, every O reply loses. -/
def forkG : Game := gameOf [["X", "", "X"], ["", "O", ""], ["O", "", "X"]] "O"

/-- C1 witness: the search leaves a concrete mid-game state untouched. -/
theorem claim_C1_witness :
    (∀ max_depth : Nat, (get_minmax_move_depth forkG max_depth).2 = forkG) ∧
    (get_minmax_move forkG).2 = forkG :=
  claim_C1 forkG (by decide)

end TTT

namespace TTT

/-! ## Score projections of the search

Because the search restores the state (`minmax_state`), its score can be
computed by a pure score recursion.  The following mirrors `_minmax`
with the state threading removed; the bridge lemmas prove the two agree
on well-formed states. -/

def abLoopMaxS (recur : Game → Int → Int) (lab : String) (beta : Int) (g : Game) :
    List (Nat × Nat) → Int → Int → Int
  | [], best, _alpha => best
  | rc :: rest, best, alpha =>
    if (getCell g rc.1 rc.2).label == "" then
      let s := recur (setCell g rc.1 rc.2 ⟨rc.1, rc.2, lab⟩) alpha
      let best2 := max best s
      let alpha2 := max alpha best2
      if beta ≤ alpha2 then best2
      else abLoopMaxS recur lab beta g rest best2 alpha2
    else abLoopMaxS recur lab beta g rest best alpha

def abLoopMinS (recur : Game → Int → Int) (lab : String) (alpha : Int) (g : Game) :
    List (Nat × Nat) → Int → Int → Int
  | [], best, _beta => best
  | rc :: rest, best, beta =>
    if (getCell g rc.1 rc.2).label == "" then
      let s := recur (setCell g rc.1 rc.2 ⟨rc.1, rc.2, lab⟩) beta
      let best2 := min best s
      let beta2 := min beta best2
      if beta2 ≤ alpha then best2
      else abLoopMinS recur lab alpha g rest best2 beta2
    else abLoopMinS recur lab alpha g rest best beta

def minmaxS (ai opp : String) : Nat → Game → Bool → Int → Int → Int
  | depth, g, mx, alpha, beta =>
    if _check_winner_for_label g ai then (1000 : Int) + depth
    else if _check_winner_for_label g opp then -1000 - (depth : Int)
    else if _board_full g then 0
    else
      match depth with
      | 0 => evaluate_board g
      | d + 1 =>
        if mx then
          abLoopMaxS (fun g1 a => minmaxS ai opp d g1 false a beta) ai beta g
            (allCells g.board_size) (-999) alpha
        else
          abLoopMinS (fun g1 b => minmaxS ai opp d g1 true alpha b) opp alpha g
            (allCells g.board_size) 999 beta

def topLoopS (recur : Game → Int → Int) (lab : String) (g : Game) :
    List (Nat × Nat) → Int → Option (Nat × Nat) → Int → Option (Nat × Nat)
  | [], _best, best_move, _alpha => best_move
  | rc :: rest, best, bm, alpha =>
    if (getCell g rc.1 rc.2).label == "" then
      let s := recur (setCell g rc.1 rc.2 ⟨rc.1, rc.2, lab⟩) alpha
      if best < s then topLoopS recur lab g rest s (some rc) (max alpha s)
      else topLoopS recur lab g rest best bm alpha
    else topLoopS recur lab g rest best bm alpha

def get_minmax_move_S (g : Game) (max_depth : Nat) : Option (Nat × Nat) :=
  let ai_label := g.current_player.label
  let opponent_label := if ai_label == "X" then "O" else "X"
  topLoopS (fun g1 a => minmaxS ai_label opponent_label (max_depth - 1) g1 false a 9999)
    ai_label g (allCells g.board_size) (-9999) none (-9999)

theorem abLoopMax_eq_S {recurT : Game → Int → Int × Game} {recurS : Game → Int → Int}
    {lab : String} {beta : Int}
    (hrec : ∀ g1 a, WfBoard g1 → recurT g1 a = (recurS g1 a, g1)) :
    ∀ (cells : List (Nat × Nat)) (g : Game) (best alpha : Int),
      cells ⊆ allCells 3 → WfBoard g →
      abLoopMax recurT lab beta cells g best alpha
        = (abLoopMaxS recurS lab beta g cells best alpha, g) := by
  intro cells
  induction cells with
  | nil => intro g best alpha _ _; rfl
  | cons rc rest ih =>
    intro g best alpha hsub hg
    have hmem : rc ∈ allCells 3 := hsub (List.mem_cons_self rc rest)
    obtain ⟨hr, hc⟩ := mem_allCells2.mp hmem
    have hsub' : rest ⊆ allCells 3 := fun x hx => hsub (by simp [hx])
    rw [abLoopMax, abLoopMaxS]
    by_cases hemp : ((getCell g rc.1 rc.2).label == "") = true
    · have hwf1 : WfBoard (setCell g rc.1 rc.2 ⟨rc.1, rc.2, lab⟩) :=
        wfBoard_setCell hg hr hc lab
      have hpair := hrec (setCell g rc.1 rc.2 ⟨rc.1, rc.2, lab⟩) alpha hwf1
      have hundo : setCell (setCell g rc.1 rc.2 ⟨rc.1, rc.2, lab⟩) rc.1 rc.2
          ⟨rc.1, rc.2, ""⟩ = g :=
        setCell_restore hg hr hc (empty_cell_eq hg hr hc hemp) _
      simp only [hemp, if_true, hpair, hundo]
      by_cases hcut : beta ≤ max alpha (max best
          (recurS (setCell g rc.1 rc.2 ⟨rc.1, rc.2, lab⟩) alpha))
      · simp [hcut]
      · simp only [hcut, if_false]
        exact ih g _ _ hsub' hg
    · simp only [hemp, if_false]
      exact ih g best alpha hsub' hg

theorem abLoopMin_eq_S {recurT : Game → Int → Int × Game} {recurS : Game → Int → Int}
    {lab : String} {alpha : Int}
    (hrec : ∀ g1 b, WfBoard g1 → recurT g1 b = (recurS g1 b, g1)) :
    ∀ (cells : List (Nat × Nat)) (g : Game) (best beta : Int),
      cells ⊆ allCells 3 → WfBoard g →
      abLoopMin recurT lab alpha cells g best beta
        = (abLoopMinS recurS lab alpha g cells best beta, g) := by
  intro cells
  induction cells with
  | nil => intro g best beta _ _; rfl
  | cons rc rest ih =>
    intro g best beta hsub hg
    have hmem : rc ∈ allCells 3 := hsub (List.mem_cons_self rc rest)
    obtain ⟨hr, hc⟩ := mem_allCells2.mp hmem
    have hsub' : rest ⊆ allCells 3 := fun x hx => hsub (by simp [hx])
    rw [abLoopMin, abLoopMinS]
    by_cases hemp : ((getCell g rc.1 rc.2).label == "") = true
    · have hwf1 : WfBoard (setCell g rc.1 rc.2 ⟨rc.1, rc.2, lab⟩) :=
        wfBoard_setCell hg hr hc lab
      have hpair := hrec (setCell g rc.1 rc.2 ⟨rc.1, rc.2, lab⟩) beta hwf1
      have hundo : setCell (setCell g rc.1 rc.2 ⟨rc.1, rc.2, lab⟩) rc.1 rc.2
          ⟨rc.1, rc.2, ""⟩ = g :=
        setCell_restore hg hr hc (empty_cell_eq hg hr hc hemp) _
      simp only [hemp, if_true, hpair, hundo]
      by_cases hcut : min beta (min best
          (recurS (setCell g rc.1 rc.2 ⟨rc.1, rc.2, lab⟩) beta)) ≤ alpha
      · simp [hcut]
      · simp only [hcut, if_false]
        exact ih g _ _ hsub' hg
    · simp only [hemp, if_false]
      exact ih g best beta hsub' hg

/-- `_minmax` is its score projection paired with the untouched state. -/
theorem minmax_eq_S (ai opp : String) :
    ∀ (depth : Nat) (g : Game) (mx : Bool) (a b : Int), WfBoard g →
      _minmax ai opp depth g mx a b = (minmaxS ai opp depth g mx a b, g) := by
  intro depth
  induction depth with
  | zero =>
    intro g mx a b _
    rw [_minmax.eq_def, minmaxS.eq_def]
    by_cases h1 : _check_winner_for_label g ai <;>
      by_cases h2 : _check_winner_for_label g opp <;>
      by_cases h3 : _board_full g <;> simp [h1, h2, h3]
  | succ d ih =>
    intro g mx a b hg
    rw [_minmax.eq_def, minmaxS.eq_def]
    by_cases h1 : _check_winner_for_label g ai
    · simp [h1]
    by_cases h2 : _check_winner_for_label g opp
    · simp [h1, h2]
    by_cases h3 : _board_full g
    · simp [h1, h2, h3]
    simp only [h1, h2, h3, Bool.false_eq_true, if_false]
    have hcells : allCells g.board_size ⊆ allCells 3 := by
      rw [hg.1]
      exact List.Subset.refl _
    cases mx with
    | true =>
      simp only [if_true]
      exact abLoopMax_eq_S (fun g1 a1 hwf => ih g1 false a1 b hwf)
        _ g (-999) a hcells hg
    | false =>
      simp only [Bool.false_eq_true, if_false]
      exact abLoopMin_eq_S (fun g1 b1 hwf => ih g1 true a b1 hwf)
        _ g 999 b hcells hg

theorem topLoop_eq_S {recurT : Game → Int → Int × Game} {recurS : Game → Int → Int}
    {lab : String}
    (hrec : ∀ g1 a, WfBoard g1 → recurT g1 a = (recurS g1 a, g1)) :
    ∀ (cells : List (Nat × Nat)) (g : Game) (best : Int)
      (bm : Option (Nat × Nat)) (alpha : Int),
      cells ⊆ allCells 3 → WfBoard g →
      topLoop recurT lab cells g best bm alpha
        = (topLoopS recurS lab g cells best bm alpha, g) := by
  intro cells
  induction cells with
  | nil => intro g best bm alpha _ _; rfl
  | cons rc rest ih =>
    intro g best bm alpha hsub hg
    have hmem : rc ∈ allCells 3 := hsub (List.mem_cons_self rc rest)
    obtain ⟨hr, hc⟩ := mem_allCells2.mp hmem
    have hsub' : rest ⊆ allCells 3 := fun x hx => hsub (by simp [hx])
    rw [topLoop, topLoopS]
    by_cases hemp : ((getCell g rc.1 rc.2).label == "") = true
    · have hwf1 : WfBoard (setCell g rc.1 rc.2 ⟨rc.1, rc.2, lab⟩) :=
        wfBoard_setCell hg hr hc lab
      have hpair := hrec (setCell g rc.1 rc.2 ⟨rc.1, rc.2, lab⟩) alpha hwf1
      have hundo : setCell (setCell g rc.1 rc.2 ⟨rc.1, rc.2, lab⟩) rc.1 rc.2
          ⟨rc.1, rc.2, ""⟩ = g :=
        setCell_restore hg hr hc (empty_cell_eq hg hr hc hemp) _
      simp only [hemp, if_true, hpair, hundo]
      by_cases himp : best < recurS (setCell g rc.1 rc.2 ⟨rc.1, rc.2, lab⟩) alpha
      · simp only [himp, if_true]
        exact ih g _ _ _ hsub' hg
      · simp only [himp, if_false]
        exact ih g _ _ _ hsub' hg
    · simp only [hemp, if_false]
      exact ih g best bm alpha hsub' hg

theorem get_minmax_move_eq_S (g : Game) (md : Nat) (hg : WfBoard g) :
    get_minmax_move_depth g md = (get_minmax_move_S g md, g) := by
  unfold get_minmax_move_depth get_minmax_move_S
  have hcells : allCells g.board_size ⊆ allCells 3 := by
    rw [hg.1]
    exact List.Subset.refl _
  exact topLoop_eq_S
    (fun g1 a hwf => minmax_eq_S _ _ (md - 1) g1 false a 9999 hwf)
    _ g (-9999) none (-9999) hcells hg

end TTT

namespace TTT

/-- Shorthand for the speculative placement `Move(r, c, lab)`. -/
def place (g : Game) (rc : Nat × Nat) (lab : String) : Game :=
  setCell g rc.1 rc.2 ⟨rc.1, rc.2, lab⟩

/-- The maximizing expansion fold with the pruning removed: the same
iteration over candidate cells, skipping occupied ones, folding the
child scores with `max` from the source's seed `-999`. -/
def npMaxFold (ai opp : String) (d : Nat) (g : Game)
    (child : Game → Int) : List (Nat × Nat) → Int → Int
  | [], best => best
  | rc :: rest, best =>
    if (getCell g rc.1 rc.2).label == "" then
      npMaxFold ai opp d g child rest (max best (child (place g rc ai)))
    else npMaxFold ai opp d g child rest best

/-- The minimizing fold, seed `999`. -/
def npMinFold (ai opp : String) (d : Nat) (g : Game)
    (child : Game → Int) : List (Nat × Nat) → Int → Int
  | [], best => best
  | rc :: rest, best =>
    if (getCell g rc.1 rc.2).label == "" then
      npMinFold ai opp d g child rest (min best (child (place g rc opp)))
    else npMinFold ai opp d g child rest best

/-- The pruning-free minimax reference: identical terminal checks and
expansion order as `_minmax`, same `-999` / `999` fold seeds, but no
alpha-beta window. -/
def npScore (ai opp : String) : Nat → Game → Bool → Int
  | depth, g, mx =>
    if _check_winner_for_label g ai then (1000 : Int) + depth
    else if _check_winner_for_label g opp then -1000 - (depth : Int)
    else if _board_full g then 0
    else
      match depth with
      | 0 => evaluate_board g
      | d + 1 =>
        if mx then
          npMaxFold ai opp d g (fun g1 => npScore ai opp d g1 false)
            (allCells g.board_size) (-999)
        else
          npMinFold ai opp d g (fun g1 => npScore ai opp d g1 true)
            (allCells g.board_size) 999

theorem npMaxFold_ge (ai opp : String) (d : Nat) (g : Game) (child : Game → Int) :
    ∀ (cells : List (Nat × Nat)) (b : Int), b ≤ npMaxFold ai opp d g child cells b := by
  intro cells
  induction cells with
  | nil => intro b; exact le_refl b
  | cons rc rest ih =>
    intro b
    rw [npMaxFold]
    by_cases h : ((getCell g rc.1 rc.2).label == "") = true
    · simp only [h, if_true]
      exact le_trans (le_max_left _ _) (ih _)
    · simp only [h, if_false]
      exact ih b

theorem npMinFold_le (ai opp : String) (d : Nat) (g : Game) (child : Game → Int) :
    ∀ (cells : List (Nat × Nat)) (b : Int), npMinFold ai opp d g child cells b ≤ b := by
  intro cells
  induction cells with
  | nil => intro b; exact le_refl b
  | cons rc rest ih =>
    intro b
    rw [npMinFold]
    by_cases h : ((getCell g rc.1 rc.2).label == "") = true
    · simp only [h, if_true]
      exact le_trans (ih _) (min_le_left _ _)
    · simp only [h, if_false]
      exact ih b

theorem abLoopMaxS_ge (recur : Game → Int → Int) (lab : String) (beta : Int) (g : Game) :
    ∀ (cells : List (Nat × Nat)) (best alpha : Int),
      best ≤ abLoopMaxS recur lab beta g cells best alpha := by
  intro cells
  induction cells with
  | nil => intro best alpha; exact le_refl best
  | cons rc rest ih =>
    intro best alpha
    rw [abLoopMaxS]
    by_cases h : ((getCell g rc.1 rc.2).label == "") = true
    · simp only [h, if_true]
      by_cases hcut : beta ≤ max alpha (max best
          (recur (setCell g rc.1 rc.2 ⟨rc.1, rc.2, lab⟩) alpha))
      · simp only [hcut, if_true]
        exact le_max_left _ _
      · simp only [hcut, if_false]
        exact le_trans (le_max_left _ _) (ih _ _)
    · simp only [h, if_false]
      exact ih best alpha

theorem abLoopMinS_le (recur : Game → Int → Int) (lab : String) (alpha : Int) (g : Game) :
    ∀ (cells : List (Nat × Nat)) (best beta : Int),
      abLoopMinS recur lab alpha g cells best beta ≤ best := by
  intro cells
  induction cells with
  | nil => intro best beta; exact le_refl best
  | cons rc rest ih =>
    intro best beta
    rw [abLoopMinS]
    by_cases h : ((getCell g rc.1 rc.2).label == "") = true
    · simp only [h, if_true]
      by_cases hcut : min beta (min best
          (recur (setCell g rc.1 rc.2 ⟨rc.1, rc.2, lab⟩) beta)) ≤ alpha
      · simp only [hcut, if_true]
        exact min_le_left _ _
      · simp only [hcut, if_false]
        exact le_trans (ih _ _) (min_le_left _ _)
    · simp only [h, if_false]
      exact ih best beta

end TTT

namespace TTT

/-- Fail-soft alpha-beta window conclusions: a result `r` of the pruned
search, against the pruning-free value `v`, on window `(a, b)`. -/
abbrev KMc (v r a b : Int) : Prop :=
  (r ≤ a → v ≤ r) ∧ (b ≤ r → r ≤ v) ∧ (a < r → r < b → r = v)

theorem km_loop_max (ai opp : String) (d : Nat) (beta : Int)
    (hIH : ∀ g1 a1, a1 < beta →
      KMc (npScore ai opp d g1 false) (minmaxS ai opp d g1 false a1 beta) a1 beta) :
    ∀ (cells : List (Nat × Nat)) (g : Game) (bAB bNP alpha : Int),
      max alpha bAB = max alpha bNP → alpha < beta → bAB < beta → bNP ≤ bAB →
      KMc (npMaxFold ai opp d g (fun g1 => npScore ai opp d g1 false) cells bNP)
        (abLoopMaxS (fun g1 a => minmaxS ai opp d g1 false a beta) ai beta g cells bAB alpha)
        alpha beta := by
  intro cells
  induction cells with
  | nil =>
    intro g bAB bNP alpha h1 h2 h3 h4
    rw [abLoopMaxS, npMaxFold]
    exact ⟨fun _ => h4, fun hb => absurd hb (not_le.mpr h3), fun hl _ => by omega⟩
  | cons rc rest ih =>
    intro g bAB bNP alpha h1 h2 h3 h4
    rw [abLoopMaxS, npMaxFold]
    by_cases hemp : ((getCell g rc.1 rc.2).label == "") = true
    · simp only [hemp, if_true, place]
      obtain ⟨ca, cb, cc⟩ := hIH (setCell g rc.1 rc.2 ⟨rc.1, rc.2, ai⟩) alpha h2
      by_cases hsb : beta ≤ minmaxS ai opp d (setCell g rc.1 rc.2 ⟨rc.1, rc.2, ai⟩) false alpha beta
      · have hws := cb hsb
        have hcut : beta ≤ max alpha (max bAB
            (minmaxS ai opp d (setCell g rc.1 rc.2 ⟨rc.1, rc.2, ai⟩) false alpha beta)) := by
          omega
        simp only [hcut, if_true]
        have hv := npMaxFold_ge ai opp d g (fun g1 => npScore ai opp d g1 false) rest
          (max bNP (npScore ai opp d (setCell g rc.1 rc.2 ⟨rc.1, rc.2, ai⟩) false))
        exact ⟨fun hle => by omega, fun _ => by omega, fun _ hlt => by omega⟩
      · have hcut : ¬ beta ≤ max alpha (max bAB
            (minmaxS ai opp d (setCell g rc.1 rc.2 ⟨rc.1, rc.2, ai⟩) false alpha beta)) := by
          omega
        simp only [hcut, if_false]
        have hkey : npScore ai opp d (setCell g rc.1 rc.2 ⟨rc.1, rc.2, ai⟩) false
              ≤ minmaxS ai opp d (setCell g rc.1 rc.2 ⟨rc.1, rc.2, ai⟩) false alpha beta
            ∧ (minmaxS ai opp d (setCell g rc.1 rc.2 ⟨rc.1, rc.2, ai⟩) false alpha beta ≤ alpha
               ∨ minmaxS ai opp d (setCell g rc.1 rc.2 ⟨rc.1, rc.2, ai⟩) false alpha beta
                 = npScore ai opp d (setCell g rc.1 rc.2 ⟨rc.1, rc.2, ai⟩) false) := by
          rcases le_or_lt (minmaxS ai opp d (setCell g rc.1 rc.2 ⟨rc.1, rc.2, ai⟩) false alpha beta)
            alpha with h5 | h5
          · exact ⟨ca h5, Or.inl h5⟩
          · have := cc h5 (lt_of_not_le hsb)
            exact ⟨le_of_eq this.symm, Or.inr this⟩
        obtain ⟨ra, rb, rc2⟩ := ih g
          (max bAB (minmaxS ai opp d (setCell g rc.1 rc.2 ⟨rc.1, rc.2, ai⟩) false alpha beta))
          (max bNP (npScore ai opp d (setCell g rc.1 rc.2 ⟨rc.1, rc.2, ai⟩) false))
          (max alpha (max bAB (minmaxS ai opp d (setCell g rc.1 rc.2 ⟨rc.1, rc.2, ai⟩) false alpha beta)))
          (by rcases hkey.2 with h5 | h5 <;> omega) (by omega) (by omega)
          (by rcases hkey.2 with h5 | h5 <;> omega)
        have hRge := abLoopMaxS_ge (fun g1 a => minmaxS ai opp d g1 false a beta) ai beta g rest
          (max bAB (minmaxS ai opp d (setCell g rc.1 rc.2 ⟨rc.1, rc.2, ai⟩) false alpha beta))
          (max alpha (max bAB (minmaxS ai opp d (setCell g rc.1 rc.2 ⟨rc.1, rc.2, ai⟩) false alpha beta)))
        have hVge := npMaxFold_ge ai opp d g (fun g1 => npScore ai opp d g1 false) rest
          (max bNP (npScore ai opp d (setCell g rc.1 rc.2 ⟨rc.1, rc.2, ai⟩) false))
        refine ⟨?_, rb, ?_⟩
        · intro hle
          exact ra (by omega)
        · intro hgt hlt
          rcases le_or_lt
            (abLoopMaxS (fun g1 a => minmaxS ai opp d g1 false a beta) ai beta g rest
              (max bAB (minmaxS ai opp d (setCell g rc.1 rc.2 ⟨rc.1, rc.2, ai⟩) false alpha beta))
              (max alpha (max bAB (minmaxS ai opp d (setCell g rc.1 rc.2 ⟨rc.1, rc.2, ai⟩) false alpha beta))))
            (max alpha (max bAB (minmaxS ai opp d (setCell g rc.1 rc.2 ⟨rc.1, rc.2, ai⟩) false alpha beta)))
            with hRle | hRgt
          · have hVle := ra hRle
            rcases hkey.2 with h5 | h5 <;> omega
          · exact rc2 hRgt hlt
    · simp only [hemp, if_false]
      exact ih g bAB bNP alpha h1 h2 h3 h4

end TTT

namespace TTT

theorem km_loop_min (ai opp : String) (d : Nat) (alpha : Int)
    (hIH : ∀ g1 b1, alpha < b1 →
      KMc (npScore ai opp d g1 true) (minmaxS ai opp d g1 true alpha b1) alpha b1) :
    ∀ (cells : List (Nat × Nat)) (g : Game) (bAB bNP beta : Int),
      min beta bAB = min beta bNP → alpha < beta → alpha < bAB → bAB ≤ bNP →
      KMc (npMinFold ai opp d g (fun g1 => npScore ai opp d g1 true) cells bNP)
        (abLoopMinS (fun g1 b => minmaxS ai opp d g1 true alpha b) opp alpha g cells bAB beta)
        alpha beta := by
  intro cells
  induction cells with
  | nil =>
    intro g bAB bNP beta h1 h2 h3 h4
    rw [abLoopMinS, npMinFold]
    exact ⟨fun hle => by omega, fun _ => h4, fun _ hlt => by omega⟩
  | cons rc rest ih =>
    intro g bAB bNP beta h1 h2 h3 h4
    rw [abLoopMinS, npMinFold]
    by_cases hemp : ((getCell g rc.1 rc.2).label == "") = true
    · simp only [hemp, if_true, place]
      obtain ⟨ca, cb, cc⟩ := hIH (setCell g rc.1 rc.2 ⟨rc.1, rc.2, opp⟩) beta h2
      by_cases hsa : minmaxS ai opp d (setCell g rc.1 rc.2 ⟨rc.1, rc.2, opp⟩) true alpha beta ≤ alpha
      · have hws := ca hsa
        have hcut : min beta (min bAB
            (minmaxS ai opp d (setCell g rc.1 rc.2 ⟨rc.1, rc.2, opp⟩) true alpha beta)) ≤ alpha := by
          omega
        simp only [hcut, if_true]
        have hv := npMinFold_le ai opp d g (fun g1 => npScore ai opp d g1 true) rest
          (min bNP (npScore ai opp d (setCell g rc.1 rc.2 ⟨rc.1, rc.2, opp⟩) true))
        exact ⟨fun _ => by omega, fun hb => by omega, fun hgt _ => by omega⟩
      · have hcut : ¬ min beta (min bAB
            (minmaxS ai opp d (setCell g rc.1 rc.2 ⟨rc.1, rc.2, opp⟩) true alpha beta)) ≤ alpha := by
          omega
        simp only [hcut, if_false]
        have hkey : minmaxS ai opp d (setCell g rc.1 rc.2 ⟨rc.1, rc.2, opp⟩) true alpha beta
              ≤ npScore ai opp d (setCell g rc.1 rc.2 ⟨rc.1, rc.2, opp⟩) true
            ∧ (beta ≤ minmaxS ai opp d (setCell g rc.1 rc.2 ⟨rc.1, rc.2, opp⟩) true alpha beta
               ∨ minmaxS ai opp d (setCell g rc.1 rc.2 ⟨rc.1, rc.2, opp⟩) true alpha beta
                 = npScore ai opp d (setCell g rc.1 rc.2 ⟨rc.1, rc.2, opp⟩) true) := by
          rcases lt_or_le (minmaxS ai opp d (setCell g rc.1 rc.2 ⟨rc.1, rc.2, opp⟩) true alpha beta)
            beta with h5 | h5
          · have := cc (lt_of_not_le hsa) h5
            exact ⟨le_of_eq this, Or.inr this⟩
          · exact ⟨cb h5, Or.inl h5⟩
        obtain ⟨ra, rb, rc2⟩ := ih g
          (min bAB (minmaxS ai opp d (setCell g rc.1 rc.2 ⟨rc.1, rc.2, opp⟩) true alpha beta))
          (min bNP (npScore ai opp d (setCell g rc.1 rc.2 ⟨rc.1, rc.2, opp⟩) true))
          (min beta (min bAB (minmaxS ai opp d (setCell g rc.1 rc.2 ⟨rc.1, rc.2, opp⟩) true alpha beta)))
          (by rcases hkey.2 with h5 | h5 <;> omega) (by omega) (by omega)
          (by rcases hkey.2 with h5 | h5 <;> omega)
        have hRle := abLoopMinS_le (fun g1 b => minmaxS ai opp d g1 true alpha b) opp alpha g rest
          (min bAB (minmaxS ai opp d (setCell g rc.1 rc.2 ⟨rc.1, rc.2, opp⟩) true alpha beta))
          (min beta (min bAB (minmaxS ai opp d (setCell g rc.1 rc.2 ⟨rc.1, rc.2, opp⟩) true alpha beta)))
        have hVle := npMinFold_le ai opp d g (fun g1 => npScore ai opp d g1 true) rest
          (min bNP (npScore ai opp d (setCell g rc.1 rc.2 ⟨rc.1, rc.2, opp⟩) true))
        refine ⟨ra, ?_, ?_⟩
        · intro hb
          exact rb (by omega)
        · intro hgt hlt
          rcases lt_or_le
            (abLoopMinS (fun g1 b => minmaxS ai opp d g1 true alpha b) opp alpha g rest
              (min bAB (minmaxS ai opp d (setCell g rc.1 rc.2 ⟨rc.1, rc.2, opp⟩) true alpha beta))
              (min beta (min bAB (minmaxS ai opp d (setCell g rc.1 rc.2 ⟨rc.1, rc.2, opp⟩) true alpha beta))))
            (min beta (min bAB (minmaxS ai opp d (setCell g rc.1 rc.2 ⟨rc.1, rc.2, opp⟩) true alpha beta)))
            with hRlt | hRge
          · exact rc2 hgt hRlt
          · have hRleV := rb hRge
            rcases hkey.2 with h5 | h5 <;> omega
    · simp only [hemp, if_false]
      exact ih g bAB bNP beta h1 h2 h3 h4

end TTT

namespace TTT

theorem KMc_refl (v a b : Int) : KMc v v a b :=
  ⟨fun _ => le_refl v, fun _ => le_refl v, fun _ _ => rfl⟩

theorem km_loop_max_deg (ai opp : String) (d : Nat) (beta : Int)
    (hIH : ∀ g1 a1, a1 < beta →
      KMc (npScore ai opp d g1 false) (minmaxS ai opp d g1 false a1 beta) a1 beta) :
    ∀ (cells : List (Nat × Nat)) (g : Game) (bAB bNP alpha : Int),
      beta ≤ -999 → -999 ≤ bAB → bAB ≤ bNP → alpha < beta →
      abLoopMaxS (fun g1 a => minmaxS ai opp d g1 false a beta) ai beta g cells bAB alpha
        ≤ npMaxFold ai opp d g (fun g1 => npScore ai opp d g1 false) cells bNP := by
  intro cells
  induction cells with
  | nil =>
    intro g bAB bNP alpha _ _ h3 _
    rw [abLoopMaxS, npMaxFold]
    exact h3
  | cons rc rest ih =>
    intro g bAB bNP alpha hdeg hlo h3 hab
    rw [abLoopMaxS, npMaxFold]
    by_cases hemp : ((getCell g rc.1 rc.2).label == "") = true
    · simp only [hemp, if_true, place]
      obtain ⟨-, cb, -⟩ := hIH (setCell g rc.1 rc.2 ⟨rc.1, rc.2, ai⟩) alpha hab
      have hv := npMaxFold_ge ai opp d g (fun g1 => npScore ai opp d g1 false) rest
        (max bNP (npScore ai opp d (setCell g rc.1 rc.2 ⟨rc.1, rc.2, ai⟩) false))
      have hcut : beta ≤ max alpha (max bAB
          (minmaxS ai opp d (setCell g rc.1 rc.2 ⟨rc.1, rc.2, ai⟩) false alpha beta)) := by
        omega
      simp only [hcut, if_true]
      rcases le_or_lt beta
        (minmaxS ai opp d (setCell g rc.1 rc.2 ⟨rc.1, rc.2, ai⟩) false alpha beta) with h5 | h5
      · have := cb h5
        omega
      · omega
    · simp only [hemp, if_false]
      exact ih g bAB bNP alpha hdeg hlo h3 hab

theorem km_loop_min_deg (ai opp : String) (d : Nat) (alpha : Int)
    (hIH : ∀ g1 b1, alpha < b1 →
      KMc (npScore ai opp d g1 true) (minmaxS ai opp d g1 true alpha b1) alpha b1) :
    ∀ (cells : List (Nat × Nat)) (g : Game) (bAB bNP beta : Int),
      999 ≤ alpha → bAB ≤ 999 → bNP ≤ bAB → alpha < beta →
      npMinFold ai opp d g (fun g1 => npScore ai opp d g1 true) cells bNP
        ≤ abLoopMinS (fun g1 b => minmaxS ai opp d g1 true alpha b) opp alpha g cells bAB beta := by
  intro cells
  induction cells with
  | nil =>
    intro g bAB bNP beta _ _ h3 _
    rw [abLoopMinS, npMinFold]
    exact h3
  | cons rc rest ih =>
    intro g bAB bNP beta hdeg hhi h3 hab
    rw [abLoopMinS, npMinFold]
    by_cases hemp : ((getCell g rc.1 rc.2).label == "") = true
    · simp only [hemp, if_true, place]
      obtain ⟨ca, -, -⟩ := hIH (setCell g rc.1 rc.2 ⟨rc.1, rc.2, opp⟩) beta hab
      have hv := npMinFold_le ai opp d g (fun g1 => npScore ai opp d g1 true) rest
        (min bNP (npScore ai opp d (setCell g rc.1 rc.2 ⟨rc.1, rc.2, opp⟩) true))
      have hcut : min beta (min bAB
          (minmaxS ai opp d (setCell g rc.1 rc.2 ⟨rc.1, rc.2, opp⟩) true alpha beta)) ≤ alpha := by
        omega
      simp only [hcut, if_true]
      rcases le_or_lt
        (minmaxS ai opp d (setCell g rc.1 rc.2 ⟨rc.1, rc.2, opp⟩) true alpha beta) alpha with h5 | h5
      · have := ca h5
        omega
      · omega
    · simp only [hemp, if_false]
      exact ih g bAB bNP beta hdeg hhi h3 hab

/-- Knuth-Moore correctness of the source's fail-soft alpha-beta: the
pruned score fails low or high soundly, and agrees exactly with the
pruning-free score strictly inside the window. -/
theorem km_main (ai opp : String) :
    ∀ (d : Nat) (g : Game) (mx : Bool) (a b : Int), a < b →
      KMc (npScore ai opp d g mx) (minmaxS ai opp d g mx a b) a b := by
  intro d
  induction d with
  | zero =>
    intro g mx a b _
    rw [minmaxS.eq_def, npScore.eq_def]
    by_cases h1 : _check_winner_for_label g ai
    · simp only [h1, if_true]
      exact KMc_refl _ a b
    by_cases h2 : _check_winner_for_label g opp
    · simp only [h1, h2, Bool.false_eq_true, if_false, if_true]
      exact KMc_refl _ a b
    by_cases h3 : _board_full g
    · simp only [h1, h2, h3, Bool.false_eq_true, if_false, if_true]
      exact KMc_refl _ a b
    simp only [h1, h2, h3, Bool.false_eq_true, if_false]
    exact KMc_refl _ a b
  | succ d ih =>
    intro g mx a b hab
    rw [minmaxS.eq_def, npScore.eq_def]
    by_cases h1 : _check_winner_for_label g ai
    · simp only [h1, if_true]
      exact KMc_refl _ a b
    by_cases h2 : _check_winner_for_label g opp
    · simp only [h1, h2, Bool.false_eq_true, if_false, if_true]
      exact KMc_refl _ a b
    by_cases h3 : _board_full g
    · simp only [h1, h2, h3, Bool.false_eq_true, if_false, if_true]
      exact KMc_refl _ a b
    simp only [h1, h2, h3, Bool.false_eq_true, if_false]
    cases mx with
    | true =>
      simp only [if_true]
      by_cases hdeg : b ≤ -999
      · have hle := km_loop_max_deg ai opp d b
          (fun g1 a1 ha1 => ih g1 false a1 b ha1)
          (allCells g.board_size) g (-999) (-999) a hdeg (le_refl _) (le_refl _) hab
        have hge := abLoopMaxS_ge (fun g1 a1 => minmaxS ai opp d g1 false a1 b) ai b g
          (allCells g.board_size) (-999) a
        exact ⟨fun hra => by omega, fun _ => hle, fun _ hrb => by omega⟩
      · exact km_loop_max ai opp d b (fun g1 a1 ha1 => ih g1 false a1 b ha1)
          (allCells g.board_size) g (-999) (-999) a rfl hab (by omega) (le_refl _)
    | false =>
      simp only [Bool.false_eq_true, if_false]
      by_cases hdeg : 999 ≤ a
      · have hle := km_loop_min_deg ai opp d a
          (fun g1 b1 hb1 => ih g1 true a b1 hb1)
          (allCells g.board_size) g 999 999 b hdeg (le_refl _) (le_refl _) hab
        have hge := abLoopMinS_le (fun g1 b1 => minmaxS ai opp d g1 true a b1) opp a g
          (allCells g.board_size) 999 b
        exact ⟨fun _ => hle, fun hrb => by omega, fun hra _ => by omega⟩
      · exact km_loop_min ai opp d a (fun g1 b1 hb1 => ih g1 true a b1 hb1)
          (allCells g.board_size) g 999 999 b rfl hab (by omega) (le_refl _)

end TTT

namespace TTT

/-- The empty cells of the board in canonical row-major order. -/
def emptyCells (g : Game) : List (Nat × Nat) :=
  (allCells g.board_size).filter (fun rc => (getCell g rc.1 rc.2).label == "")

theorem npMaxFold_eq_foldl (ai opp : String) (d : Nat) (g : Game) (child : Game → Int) :
    ∀ (cells : List (Nat × Nat)) (b : Int),
      npMaxFold ai opp d g child cells b =
        ((cells.filter (fun rc => (getCell g rc.1 rc.2).label == "")).map
          (fun rc => child (place g rc ai))).foldl max b := by
  intro cells
  induction cells with
  | nil => intro b; rfl
  | cons rc rest ih =>
    intro b
    rw [npMaxFold]
    by_cases hemp : ((getCell g rc.1 rc.2).label == "") = true
    · simp only [hemp, if_true]
      rw [ih]
      simp [List.filter_cons, hemp]
    · simp only [hemp, if_false]
      have hf : List.filter (fun rc => (getCell g rc.1 rc.2).label == "") (rc :: rest)
          = List.filter (fun rc => (getCell g rc.1 rc.2).label == "") rest := by
        simp [List.filter_cons, hemp]
      rw [hf]
      exact ih b

theorem npMinFold_eq_foldl (ai opp : String) (d : Nat) (g : Game) (child : Game → Int) :
    ∀ (cells : List (Nat × Nat)) (b : Int),
      npMinFold ai opp d g child cells b =
        ((cells.filter (fun rc => (getCell g rc.1 rc.2).label == "")).map
          (fun rc => child (place g rc opp))).foldl min b := by
  intro cells
  induction cells with
  | nil => intro b; rfl
  | cons rc rest ih =>
    intro b
    rw [npMinFold]
    by_cases hemp : ((getCell g rc.1 rc.2).label == "") = true
    · simp only [hemp, if_true]
      rw [ih]
      simp [List.filter_cons, hemp]
    · simp only [hemp, if_false]
      have hf : List.filter (fun rc => (getCell g rc.1 rc.2).label == "") (rc :: rest)
          = List.filter (fun rc => (getCell g rc.1 rc.2).label == "") rest := by
        simp [List.filter_cons, hemp]
      rw [hf]
      exact ih b

/-- C2 counterexample: at the fork state (O to move, X holding two open
threats) `_minmax` is at a non-terminal, non-depth-exhausted maximizing
node; every empty cell's recursive score is -1000 (every O reply loses),
so the maximum over the empty cells is -1000, yet the node returns -999
(the fold seed).  The same happens with the pruning-free recursion, in
which no beta <= alpha cutoff can ever fire because no window exists. -/
theorem claim_C2_counterexample :
    _check_winner_for_label forkG "O" = false ∧
    _check_winner_for_label forkG "X" = false ∧
    _board_full forkG = false ∧
    emptyCells forkG = [(0, 1), (1, 0), (1, 2), (2, 1)] ∧
    (∀ rc ∈ emptyCells forkG,
      minmaxS "O" "X" 1 (place forkG rc "O") false (-9999) 9999 = -1000) ∧
    (∀ rc ∈ emptyCells forkG,
      npScore "O" "X" 1 (place forkG rc "O") false = -1000) ∧
    minmaxS "O" "X" 2 forkG true (-9999) 9999 = -999 ∧
    npScore "O" "X" 2 forkG true = -999 ∧
    ((-999 : Int) ≠ -1000) := by
  refine ⟨by decide, by decide, by decide, by decide, by decide, by decide, ?_, ?_, by decide⟩
  · decide
  · decide

/-- C2 as amended: at a non-terminal, non-depth-exhausted node whose
pruning-free value lies strictly inside the window (so no cutoff
distorts the result), the value returned equals the fold of the
children's pruning-free scores over the empty cells in row-major order
into a running best seeded with -999 (maximizing) or 999 (minimizing) -
i.e. the maximum (minimum) of the sentinel and all child scores, rather
than of the child scores alone. -/
theorem claim_C2 (ai opp : String) (d : Nat) (g : Game) (mx : Bool) (a b : Int)
    (h1 : _check_winner_for_label g ai = false)
    (h2 : _check_winner_for_label g opp = false)
    (h3 : _board_full g = false)
    (hlo : a < npScore ai opp (d + 1) g mx)
    (hhi : npScore ai opp (d + 1) g mx < b) :
    minmaxS ai opp (d + 1) g mx a b =
      if mx then
        ((emptyCells g).map (fun rc => npScore ai opp d (place g rc ai) false)).foldl
          max (-999)
      else
        ((emptyCells g).map (fun rc => npScore ai opp d (place g rc opp) true)).foldl
          min 999 := by
  obtain ⟨ca, cb, cc⟩ := km_main ai opp (d + 1) g mx a b (lt_trans hlo hhi)
  have hr : minmaxS ai opp (d + 1) g mx a b = npScore ai opp (d + 1) g mx := by
    rcases le_or_lt (minmaxS ai opp (d + 1) g mx a b) a with h | h
    · have := ca h
      omega
    · rcases lt_or_le (minmaxS ai opp (d + 1) g mx a b) b with h' | h'
      · exact cc h h'
      · have := cb h'
        omega
  rw [hr, npScore.eq_def]
  simp only [h1, h2, h3, Bool.false_eq_true, if_false]
  cases mx with
  | true =>
    simp only [if_true]
    exact npMaxFold_eq_foldl ai opp d g _ (allCells g.board_size) (-999)
  | false =>
    simp only [Bool.false_eq_true, if_false]
    exact npMinFold_eq_foldl ai opp d g _ (allCells g.board_size) 999

/-- C2 witness: the amended statement at the fork state: the returned
value -999 is the fold of the sentinel -999 with the four child scores
of value -1000. -/
theorem claim_C2_witness :
    minmaxS "O" "X" (1 + 1) forkG true (-9999) 9999 =
      ((emptyCells forkG).map
        (fun rc => npScore "O" "X" 1 (place forkG rc "O") false)).foldl max (-999) :=
  (claim_C2 "O" "X" 1 forkG true (-9999) 9999 (by decide) (by decide) (by decide)
    (by decide) (by decide)).trans (by simp)

end TTT

namespace TTT

theorem getCellI_nonneg (g : Game) {i j : Int} (hi : 0 ≤ i) (hj : 0 ≤ j) :
    getCellI g i j = getCell g i.toNat j.toNat := by
  simp [getCellI, getCell, pyIndex, hi, hj, Int.toNat_of_nonneg]

theorem list_any_congr {l : List α} {p q : α → Bool} (h : ∀ x ∈ l, p x = q x) :
    l.any p = l.any q := by
  induction l with
  | nil => rfl
  | cons x xs ih =>
    simp only [List.any_cons, h x (by simp)]
    rw [ih (fun y hy => h y (by simp [hy]))]

theorem list_all_congr {l : List α} {p q : α → Bool} (h : ∀ x ∈ l, p x = q x) :
    l.all p = l.all q := by
  induction l with
  | nil => rfl
  | cons x xs ih =>
    simp only [List.all_cons, h x (by simp)]
    rw [ih (fun y hy => h y (by simp [hy]))]

theorem mem_emptyCells {g : Game} {rc : Nat × Nat} (hg : WfBoard g) :
    rc ∈ emptyCells g ↔ rc.1 < 3 ∧ rc.2 < 3 ∧ (getCell g rc.1 rc.2).label = "" := by
  unfold emptyCells
  rw [hg.1, List.mem_filter]
  constructor
  · rintro ⟨h1, h2⟩
    obtain ⟨ha, hb⟩ := mem_allCells2.mp h1
    exact ⟨ha, hb, by simpa using h2⟩
  · rintro ⟨h1, h2, h3⟩
    exact ⟨mem_allCells2.mpr ⟨h1, h2⟩, by simpa using h3⟩

/-- A well-formed board is full exactly when it has no empty cells. -/
theorem board_full_iff {g : Game} (hg : WfBoard g) :
    _board_full g = true ↔ emptyCells g = [] := by
  unfold _board_full
  rw [List.all_eq_true, List.eq_nil_iff_forall_not_mem]
  constructor
  · intro h rc hrc
    obtain ⟨h1, h2, h3⟩ := (mem_emptyCells hg).mp hrc
    obtain ⟨row, hrow, hlen, hcell⟩ := wf_cell hg h1 h2
    have hrmem : row ∈ g.current_moves := List.getElem?_mem hrow
    have hcmem : getCell g rc.1 rc.2 ∈ row := List.getElem?_mem hcell
    have := List.all_eq_true.mp (h row hrmem) _ hcmem
    simp [h3] at this
  · intro h row hrow
    rw [List.all_eq_true]
    intro m hm
    obtain ⟨r, hr⟩ := List.mem_iff_getElem?.mp hrow
    obtain ⟨c, hc⟩ := List.mem_iff_getElem?.mp hm
    have hr3 : r < 3 := by
      obtain ⟨hlt, -⟩ := List.getElem?_eq_some_iff.mp hr
      have := hg.2.1
      omega
    have hc3 : c < 3 := by
      obtain ⟨hlt, -⟩ := List.getElem?_eq_some_iff.mp hc
      have := hg.2.2.1 row hrow
      omega
    have hm2 : getCell g r c = m := getCell_eq hr hc
    by_cases hlab : m.label = ""
    · exact absurd ((mem_emptyCells hg).mpr ⟨hr3, hc3, hm2 ▸ hlab⟩) (h (r, c))
    · simpa using hlab

end TTT

namespace TTT

/-- Placing a mark of one player on an empty cell neither creates nor
destroys a completed line of the other player. -/
theorem check_place {g : Game} (hg : WfBoard g)
    (hcombos : g.winning_combos = WINNING_COMBOS_3)
    {rc : Nat × Nat} (hrc : rc ∈ emptyCells g) {x y : String}
    (hxy : x ≠ y) (hy : y ≠ "") :
    _check_winner_for_label (place g rc x) y = _check_winner_for_label g y := by
  obtain ⟨hr, hc, hemp⟩ := (mem_emptyCells hg).mp hrc
  unfold _check_winner_for_label
  simp only [place]
  have hpc : (setCell g rc.1 rc.2 ⟨rc.1, rc.2, x⟩).winning_combos = WINNING_COMBOS_3 :=
    hcombos
  rw [hpc, hcombos]
  apply list_any_congr
  intro cb hcb
  apply list_all_congr
  intro p hp
  have hall : ∀ cb2 ∈ WINNING_COMBOS_3, ∀ p2 ∈ cb2,
      0 ≤ p2.1 ∧ p2.1 < 3 ∧ 0 ≤ p2.2 ∧ p2.2 < 3 := by decide
  obtain ⟨hp1, hp2, hp3, hp4⟩ := hall cb hcb p hp
  rw [getCellI_nonneg _ hp1 hp3, getCellI_nonneg _ hp1 hp3]
  by_cases heq : (p.1.toNat, p.2.toNat) = rc
  · have e1 : p.1.toNat = rc.1 := congrArg Prod.fst heq
    have e2 : p.2.toNat = rc.2 := congrArg Prod.snd heq
    rw [e1, e2, getCell_setCell_self hg hr hc]
    have hx : (x == y) = false := by
      simpa using hxy
    have he : ((getCell g rc.1 rc.2).label == y) = false := by
      rw [hemp]
      simpa using Ne.symm hy
    rw [hx, he]
  · rw [getCell_setCell_ne hg hr hc _ heq]

theorem length_filter_update [DecidableEq α] :
    ∀ (l : List α) (p q : α → Bool) (a : α), l.Nodup → a ∈ l →
      p a = true → q a = false → (∀ x ∈ l, x ≠ a → p x = q x) →
      (l.filter q).length + 1 = (l.filter p).length := by
  intro l
  induction l with
  | nil => intro p q a _ ha; exact absurd ha (List.not_mem_nil a)
  | cons x xs ih =>
    intro p q a hnd ha hpa hqa hrest
    rcases List.mem_cons.mp ha with hxa | hxs
    · have hpx : p x = true := hxa ▸ hpa
      have hqx : q x = false := hxa ▸ hqa
      have hnotin : a ∉ xs := by
        rw [hxa]
        exact (List.nodup_cons.mp hnd).1
      have hfeq : xs.filter p = xs.filter q := by
        apply List.filter_congr
        intro z hz
        exact hrest z (by simp [hz]) (fun hza => hnotin (hza ▸ hz))
      simp [List.filter_cons, hpx, hqx, hfeq]
    · have hxa : x ≠ a := fun h => (List.nodup_cons.mp hnd).1 (h ▸ hxs)
      have hpq : p x = q x := hrest x (by simp) hxa
      have := ih p q a (List.nodup_cons.mp hnd).2 hxs hpa hqa
        (fun z hz hza => hrest z (by simp [hz]) hza)
      rcases hpx : p x with _ | _
      · simpa [List.filter_cons, hpx, hpq ▸ hpx] using this
      · simpa [List.filter_cons, hpx, hpq ▸ hpx] using this

/-- Placing a mark on an empty cell reduces the number of empty cells
by exactly one. -/
theorem length_emptyCells_place {g : Game} (hg : WfBoard g)
    {rc : Nat × Nat} (hrc : rc ∈ emptyCells g) {lab : String} (hlab : lab ≠ "") :
    (emptyCells (place g rc lab)).length + 1 = (emptyCells g).length := by
  obtain ⟨hr, hc, hemp⟩ := (mem_emptyCells hg).mp hrc
  unfold emptyCells
  have hbs : (place g rc lab).board_size = g.board_size := rfl
  rw [hbs, hg.1]
  apply length_filter_update (allCells 3) _ _ rc (by decide)
    (mem_allCells2.mpr ⟨hr, hc⟩)
  · simpa using hemp
  · simp only [place]
    rw [getCell_setCell_self hg hr hc]
    simpa using hlab
  · intro z hz hza
    simp only [place]
    rw [getCell_setCell_ne hg hr hc _ (by cases z; cases rc; simpa using hza)]

theorem foldl_max_ge_init : ∀ (l : List Int) (b : Int), b ≤ l.foldl max b := by
  intro l
  induction l with
  | nil => intro b; exact le_refl b
  | cons x xs ih => intro b; exact le_trans (le_max_left b x) (ih _)

theorem foldl_max_le {m : Int} : ∀ (l : List Int) (b : Int), b ≤ m →
    (∀ x ∈ l, x ≤ m) → l.foldl max b ≤ m := by
  intro l
  induction l with
  | nil => intro b hb _; exact hb
  | cons x xs ih =>
    intro b hb h
    rw [List.foldl_cons]
    exact ih _ (max_le hb (h x (by simp))) (fun z hz => h z (by simp [hz]))

theorem foldl_max_ge_of_mem : ∀ (l : List Int) (b x : Int), x ∈ l → x ≤ l.foldl max b := by
  intro l
  induction l with
  | nil => intro b x hx; exact absurd hx (List.not_mem_nil x)
  | cons y ys ih =>
    intro b x hx
    rcases List.mem_cons.mp hx with h | h
    · subst h
      exact le_trans (le_max_right b x) (foldl_max_ge_init ys _)
    · exact ih _ x h

theorem foldl_min_le_init : ∀ (l : List Int) (b : Int), l.foldl min b ≤ b := by
  intro l
  induction l with
  | nil => intro b; exact le_refl b
  | cons x xs ih => intro b; exact le_trans (ih _) (min_le_left b x)

theorem foldl_min_ge {m : Int} : ∀ (l : List Int) (b : Int), m ≤ b →
    (∀ x ∈ l, m ≤ x) → m ≤ l.foldl min b := by
  intro l
  induction l with
  | nil => intro b hb _; exact hb
  | cons x xs ih =>
    intro b hb h
    rw [List.foldl_cons]
    exact ih _ (le_min hb (h x (by simp))) (fun z hz => h z (by simp [hz]))

theorem foldl_min_le_of_mem : ∀ (l : List Int) (b x : Int), x ∈ l → l.foldl min b ≤ x := by
  intro l
  induction l with
  | nil => intro b x hx; exact absurd hx (List.not_mem_nil x)
  | cons y ys ih =>
    intro b x hx
    rcases List.mem_cons.mp hx with h | h
    · subst h
      exact le_trans (foldl_min_le_init ys _) (min_le_right b x)
    · exact ih _ x h

/-- The canonical combos with `Nat` coordinates, for direct reads. -/
def COMBOS_N : List (List (Nat × Nat)) :=
  [[(0, 0), (0, 1), (0, 2)], [(1, 0), (1, 1), (1, 2)], [(2, 0), (2, 1), (2, 2)],
   [(0, 0), (1, 0), (2, 0)], [(0, 1), (1, 1), (2, 1)], [(0, 2), (1, 2), (2, 2)],
   [(0, 0), (1, 1), (2, 2)], [(0, 2), (1, 1), (2, 0)]]

/-- Completed-line test with direct in-bounds reads. -/
def hasLineN (g : Game) (lab : String) : Bool :=
  COMBOS_N.any (fun cb => cb.all (fun p => (getCell g p.1 p.2).label == lab))

/-- On a well-formed game the source's winner check agrees with the
direct one. -/
theorem any_map_congr {l : List α} {f : α → β} {p : β → Bool} {q : α → Bool}
    (h : ∀ x ∈ l, p (f x) = q x) : (l.map f).any p = l.any q := by
  induction l with
  | nil => rfl
  | cons x xs ih =>
    simp only [List.map_cons, List.any_cons, h x (by simp)]
    rw [ih (fun y hy => h y (by simp [hy]))]

theorem all_map_congr {l : List α} {f : α → β} {p : β → Bool} {q : α → Bool}
    (h : ∀ x ∈ l, p (f x) = q x) : (l.map f).all p = l.all q := by
  induction l with
  | nil => rfl
  | cons x xs ih =>
    simp only [List.map_cons, List.all_cons, h x (by simp)]
    rw [ih (fun y hy => h y (by simp [hy]))]

theorem check_winner_eq_hasLineN {g : Game} (hg : WfBoard g)
    (hcombos : g.winning_combos = WINNING_COMBOS_3) (lab : String) :
    _check_winner_for_label g lab = hasLineN g lab := by
  unfold _check_winner_for_label hasLineN
  have hmap : WINNING_COMBOS_3
      = COMBOS_N.map (fun cb => cb.map (fun p => ((p.1 : Int), (p.2 : Int)))) := by
    decide
  rw [hcombos, hmap]
  apply any_map_congr
  intro cb _
  apply all_map_congr
  intro p _
  rw [getCellI_natCast]

/-- The cells in the exploration order used by the certificate search
(center, corners, then edges). -/
def CENTER_ORDER : List (Nat × Nat) :=
  [(1, 1), (0, 0), (0, 2), (2, 0), (2, 2), (0, 1), (1, 0), (1, 2), (2, 1)]

/-- The empty cells, enumerated center-first (same set of cells as
`emptyCells`; the order is irrelevant to the existence claims below but
makes the certificate searches much smaller). -/
def orderedEmpty (g : Game) : List (Nat × Nat) :=
  CENTER_ORDER.filter (fun rc => (getCell g rc.1 rc.2).label == "")

theorem mem_orderedEmpty {g : Game} (hg : WfBoard g) {rc : Nat × Nat} :
    rc ∈ orderedEmpty g ↔ rc ∈ emptyCells g := by
  unfold orderedEmpty emptyCells
  rw [hg.1, List.mem_filter, List.mem_filter]
  have hco1 : ∀ x ∈ CENTER_ORDER, x ∈ allCells 3 := by decide
  have hco2 : ∀ x ∈ allCells 3, x ∈ CENTER_ORDER := by decide
  exact ⟨fun ⟨h1, h2⟩ => ⟨hco1 rc h1, h2⟩, fun ⟨h1, h2⟩ => ⟨hco2 rc h1, h2⟩⟩

theorem orderedEmpty_nil {g : Game} (hg : WfBoard g) :
    orderedEmpty g = [] ↔ emptyCells g = [] := by
  rw [List.eq_nil_iff_forall_not_mem, List.eq_nil_iff_forall_not_mem]
  exact ⟨fun h rc hrc => h rc ((mem_orderedEmpty hg).mpr hrc),
    fun h rc hrc => h rc ((mem_orderedEmpty hg).mp hrc)⟩

/-- Ground truth for the game-theoretic claims: player with mark `l`
(against mark `o`) can force a completed `l` line within `fuel` plies;
`moverL` says whether `l` is to move.  Placing alternates marks; a full
board or an `o` line (reached first) is not a win for `l`. -/
def forced (l o : String) : Nat → Game → Bool → Bool
  | fuel, g, moverL =>
    if hasLineN g l then true
    else if hasLineN g o then false
    else
      match fuel with
      | 0 => false
      | f + 1 =>
        if moverL then
          (orderedEmpty g).any (fun rc => forced l o f (place g rc l) false)
        else
          !(orderedEmpty g).isEmpty &&
            (orderedEmpty g).all (fun rc => forced l o f (place g rc o) true)

theorem any_congr_mem {α : Type} {l1 l2 : List α} (p : α → Bool)
    (h : ∀ x, x ∈ l1 ↔ x ∈ l2) : l1.any p = l2.any p := by
  have hiff : l1.any p = true ↔ l2.any p = true := by
    simp only [List.any_eq_true]
    exact ⟨fun ⟨x, hx, hp⟩ => ⟨x, (h x).mp hx, hp⟩,
      fun ⟨x, hx, hp⟩ => ⟨x, (h x).mpr hx, hp⟩⟩
  cases hb1 : l1.any p <;> cases hb2 : l2.any p <;> simp_all

theorem all_congr_mem {α : Type} {l1 l2 : List α} (p : α → Bool)
    (h : ∀ x, x ∈ l1 ↔ x ∈ l2) : l1.all p = l2.all p := by
  have hiff : l1.all p = true ↔ l2.all p = true := by
    simp only [List.all_eq_true]
    exact ⟨fun hh x hx => hh x ((h x).mpr hx), fun hh x hx => hh x ((h x).mp hx)⟩
  cases hb1 : l1.all p <;> cases hb2 : l2.all p <;> simp_all

theorem orderedEmpty_isEmpty {g : Game} (hg : WfBoard g) :
    (orderedEmpty g).isEmpty = (emptyCells g).isEmpty := by
  have hnil := orderedEmpty_nil hg
  cases hl1 : orderedEmpty g <;> cases hl2 : emptyCells g <;> simp_all

theorem forced_zero {g : Game} (hg : WfBoard g)
    (hcombos : g.winning_combos = WINNING_COMBOS_3) (l o : String) (mv : Bool) :
    forced l o 0 g mv = _check_winner_for_label g l := by
  rw [forced.eq_def]
  simp only []
  rw [check_winner_eq_hasLineN hg hcombos l]
  cases hl : hasLineN g l <;> cases ho : hasLineN g o <;> simp [hl, ho]

theorem forced_step {g : Game} (hg : WfBoard g)
    (hcombos : g.winning_combos = WINNING_COMBOS_3) (l o : String) (f : Nat) (mv : Bool) :
    forced l o (f + 1) g mv =
      (if _check_winner_for_label g l = true then true
       else if _check_winner_for_label g o = true then false
       else if mv then (emptyCells g).any (fun rc => forced l o f (place g rc l) false)
       else !(emptyCells g).isEmpty &&
         (emptyCells g).all (fun rc => forced l o f (place g rc o) true)) := by
  conv_lhs => rw [forced.eq_def]
  simp only []
  rw [check_winner_eq_hasLineN hg hcombos l, check_winner_eq_hasLineN hg hcombos o]
  by_cases hl : hasLineN g l = true
  · simp [hl]
  · by_cases ho : hasLineN g o = true
    · simp [hl, ho]
    · simp only [Bool.not_eq_true] at hl ho
      simp only [hl, ho, Bool.false_eq_true, if_false]
      cases mv with
      | true =>
        simp only [if_true]
        exact any_congr_mem _ (fun x => mem_orderedEmpty hg)
      | false =>
        simp only [Bool.false_eq_true, if_false]
        rw [orderedEmpty_isEmpty hg,
          all_congr_mem (fun rc => forced l o f (place g rc o) true)
            (fun x => mem_orderedEmpty hg)]

/-- Flat index of a cell in the 3x3 grid. -/
def idx (rc : Nat × Nat) : Nat := 3 * rc.1 + rc.2

/-- Line test on a 9-bit occupancy mask. -/
def hasLineM (m : Nat) : Bool :=
  COMBOS_N.any (fun cb => cb.all (fun p => m.testBit (idx p)))

/-- Bitmask refinement of `forced`: the two occupancy masks `ml` (the
forcing label) and `mo` (the other label) replace the board. -/
def forcedM : Nat → Nat → Nat → Bool → Bool
  | fuel, ml, mo, moverL =>
    if hasLineM ml then true
    else if hasLineM mo then false
    else
      match fuel with
      | 0 => false
      | f + 1 =>
        if moverL then
          (CENTER_ORDER.filter (fun rc => !(ml ||| mo).testBit (idx rc))).any
            (fun rc => forcedM f (ml ||| 2 ^ idx rc) mo false)
        else
          !(CENTER_ORDER.filter (fun rc => !(ml ||| mo).testBit (idx rc))).isEmpty &&
            (CENTER_ORDER.filter (fun rc => !(ml ||| mo).testBit (idx rc))).all
              (fun rc => forcedM f ml (mo ||| 2 ^ idx rc) true)

theorem bool_eq_of_iff {a b : Bool} (h : a = true ↔ b = true) : a = b := by
  cases a <;> cases b <;> simp_all

/-- The board/mask correspondence: each cell labelled `l` is a set bit of
`ml`, each cell labelled `o` a set bit of `mo`, each empty cell clear in
both. -/
def MaskRel (l o : String) (g : Game) (ml mo : Nat) : Prop :=
  ∀ rc ∈ allCells 3,
    ((getCell g rc.1 rc.2).label = l ↔ ml.testBit (idx rc) = true) ∧
    ((getCell g rc.1 rc.2).label = o ↔ mo.testBit (idx rc) = true) ∧
    ((getCell g rc.1 rc.2).label = "" ↔
      (ml.testBit (idx rc) = false ∧ mo.testBit (idx rc) = false))

theorem hasLineN_eq_hasLineM {lab : String} {g : Game} {m : Nat}
    (h : ∀ rc ∈ allCells 3, ((getCell g rc.1 rc.2).label = lab ↔ m.testBit (idx rc) = true)) :
    hasLineN g lab = hasLineM m := by
  have hsub : ∀ cb ∈ COMBOS_N, ∀ p ∈ cb, p ∈ allCells 3 := by decide
  unfold hasLineN hasLineM
  apply list_any_congr
  intro cb hcb
  apply list_all_congr
  intro p hp
  apply bool_eq_of_iff
  simp only [beq_iff_eq]
  exact h p (hsub cb hcb p hp)

theorem orderedEmpty_eq_free {l o : String} {g : Game} {ml mo : Nat}
    (hR : MaskRel l o g ml mo) :
    orderedEmpty g = CENTER_ORDER.filter (fun rc => !(ml ||| mo).testBit (idx rc)) := by
  have hsub : ∀ rc ∈ CENTER_ORDER, rc ∈ allCells 3 := by decide
  unfold orderedEmpty
  apply List.filter_congr
  intro rc hrc
  obtain ⟨-, -, h3⟩ := hR rc (hsub rc hrc)
  apply bool_eq_of_iff
  simp only [beq_iff_eq, Bool.not_eq_true', Nat.testBit_or, Bool.or_eq_false_iff]
  exact h3

theorem maskRel_swap {l o : String} {g : Game} {ml mo : Nat}
    (h : MaskRel l o g ml mo) : MaskRel o l g mo ml := by
  intro rc hrc
  obtain ⟨h1, h2, h3⟩ := h rc hrc
  exact ⟨h2, h1,
    ⟨fun he => ⟨(h3.mp he).2, (h3.mp he).1⟩, fun ⟨a, b⟩ => h3.mpr ⟨b, a⟩⟩⟩

theorem idx_inj : ∀ a ∈ allCells 3, ∀ b ∈ allCells 3, idx a = idx b → a = b := by
  decide

theorem maskRel_place_l {l o : String} (hl : l ≠ "") (hol : o ≠ l) {g : Game} {ml mo : Nat}
    (hg : WfBoard g) (hR : MaskRel l o g ml mo) {rc : Nat × Nat}
    (hrc : rc ∈ allCells 3) (hE : (getCell g rc.1 rc.2).label = "") :
    MaskRel l o (place g rc l) (ml ||| 2 ^ idx rc) mo := by
  obtain ⟨hr1, hr2⟩ := mem_allCells2.mp hrc
  have hclear := (hR rc hrc).2.2.mp hE
  intro rc' hrc'
  by_cases he : rc' = rc
  · subst he
    have hcell : getCell (place g rc' l) rc'.1 rc'.2 = ⟨rc'.1, rc'.2, l⟩ :=
      getCell_setCell_self hg hr1 hr2 _
    rw [hcell]
    have hbit : (ml ||| 2 ^ idx rc').testBit (idx rc') = true := by
      rw [Nat.testBit_or, Nat.testBit_two_pow_self, Bool.or_true]
    refine ⟨⟨fun _ => hbit, fun _ => rfl⟩,
      ⟨fun he2 => absurd he2.symm hol, fun hb => absurd (hclear.2 ▸ hb) (by simp)⟩,
      ⟨fun he2 => absurd he2.symm (Ne.symm hl), fun hb => absurd (hbit ▸ hb.1) (by simp)⟩⟩
  · have hne2 : (rc'.1, rc'.2) ≠ (rc.1, rc.2) := by
      intro hh
      apply he
      cases rc'; cases rc
      simpa using hh
    have hcell : getCell (place g rc l) rc'.1 rc'.2 = getCell g rc'.1 rc'.2 :=
      getCell_setCell_ne hg hr1 hr2 _ hne2
    have hidx : idx rc ≠ idx rc' := fun hh => he (idx_inj rc' hrc' rc hrc hh.symm)
    have hbit : (ml ||| 2 ^ idx rc).testBit (idx rc') = ml.testBit (idx rc') := by
      rw [Nat.testBit_or, Nat.testBit_two_pow_of_ne hidx, Bool.or_false]
    rw [hcell, hbit]
    exact hR rc' hrc'

theorem forced_eq_forcedM (l o : String) (hl : l ≠ "") (ho : o ≠ "") (hlo : l ≠ o) :
    ∀ (n : Nat) (g : Game) (ml mo : Nat) (mv : Bool), WfBoard g →
      MaskRel l o g ml mo → forced l o n g mv = forcedM n ml mo mv := by
  intro n
  induction n with
  | zero =>
    intro g ml mo mv hg hR
    have e1 : hasLineN g l = hasLineM ml :=
      hasLineN_eq_hasLineM (fun rc hrc => (hR rc hrc).1)
    have e2 : hasLineN g o = hasLineM mo :=
      hasLineN_eq_hasLineM (fun rc hrc => (hR rc hrc).2.1)
    rw [forced.eq_def, forcedM.eq_def]
    simp only []
    rw [e1, e2]
  | succ f ih =>
    intro g ml mo mv hg hR
    have e1 : hasLineN g l = hasLineM ml :=
      hasLineN_eq_hasLineM (fun rc hrc => (hR rc hrc).1)
    have e2 : hasLineN g o = hasLineM mo :=
      hasLineN_eq_hasLineM (fun rc hrc => (hR rc hrc).2.1)
    have hfree := orderedEmpty_eq_free hR
    rw [forced.eq_def, forcedM.eq_def]
    simp only []
    rw [e1, e2, ← hfree]
    by_cases hml : hasLineM ml = true
    · simp [hml]
    · by_cases hmo : hasLineM mo = true
      · simp [hml, hmo]
      · simp only [Bool.not_eq_true] at hml hmo
        simp only [hml, hmo, Bool.false_eq_true, if_false]
        cases mv with
        | true =>
          simp only [if_true]
          apply list_any_congr
          intro rc hrc
          have hrcE := (mem_orderedEmpty hg).mp hrc
          obtain ⟨h1, h2, h3⟩ := (mem_emptyCells hg).mp hrcE
          have hrcA : rc ∈ allCells 3 := mem_allCells2.mpr ⟨h1, h2⟩
          exact ih (place g rc l) (ml ||| 2 ^ idx rc) mo false
            (wfBoard_setCell hg h1 h2 l)
            (maskRel_place_l hl (Ne.symm hlo) hg hR hrcA h3)
        | false =>
          simp only [Bool.false_eq_true, if_false]
          congr 1
          apply list_all_congr
          intro rc hrc
          have hrcE := (mem_orderedEmpty hg).mp hrc
          obtain ⟨h1, h2, h3⟩ := (mem_emptyCells hg).mp hrcE
          have hrcA : rc ∈ allCells 3 := mem_allCells2.mpr ⟨h1, h2⟩
          have hRo : MaskRel o l (place g rc o) (mo ||| 2 ^ idx rc) ml :=
            maskRel_place_l ho hlo hg (maskRel_swap hR) hrcA h3
          exact ih (place g rc o) ml (mo ||| 2 ^ idx rc) true
            (wfBoard_setCell hg h1 h2 o) (maskRel_swap hRo)

theorem maskRel_empty {l o : String} (hl : l ≠ "") (ho : o ≠ "") :
    MaskRel l o emptyG 0 0 := by
  have hlabel : ∀ rc ∈ allCells 3, (getCell emptyG rc.1 rc.2).label = "" := by decide
  intro rc hrc
  rw [hlabel rc hrc]
  refine ⟨⟨fun he => absurd he.symm hl, fun hb => by simp [Nat.zero_testBit] at hb⟩,
    ⟨fun he => absurd he.symm ho, fun hb => by simp [Nat.zero_testBit] at hb⟩,
    ⟨fun _ => ⟨Nat.zero_testBit _, Nat.zero_testBit _⟩, fun _ => rfl⟩⟩

end TTT

namespace TTT

theorem sign_P1 (ai opp : String) (hai : ai ≠ "") (hopp : opp ≠ "") (hne : ai ≠ opp) :
    ∀ (n : Nat) (d : Nat) (g : Game) (mx : Bool),
      WfBoard g → g.winning_combos = WINNING_COMBOS_3 →
      ¬(_check_winner_for_label g ai = true ∧ _check_winner_for_label g opp = true) →
      (emptyCells g).length ≤ d → (emptyCells g).length ≤ n →
      forced opp ai n g (!mx) = true → npScore ai opp d g mx ≤ -999 := by
  intro n
  induction n with
  | zero =>
    intro d g mx hg hcombos hboth hd hn hforced
    have h2 : _check_winner_for_label g opp = true := by
      rw [forced_zero hg hcombos] at hforced
      exact hforced
    have h1 : _check_winner_for_label g ai = false := by
      by_cases hy : _check_winner_for_label g ai = true
      · exact absurd ⟨hy, h2⟩ hboth
      · simpa using hy
    rw [npScore.eq_def]
    simp only [h1, h2, Bool.false_eq_true, if_false, if_true]
    omega
  | succ f ih =>
    intro d g mx hg hcombos hboth hd hn hforced
    by_cases h2 : _check_winner_for_label g opp = true
    · have h1 : _check_winner_for_label g ai = false := by
        by_cases hy : _check_winner_for_label g ai = true
        · exact absurd ⟨hy, h2⟩ hboth
        · simpa using hy
      rw [npScore.eq_def]
      simp only [h1, h2, Bool.false_eq_true, if_false, if_true]
      omega
    · have h2f : _check_winner_for_label g opp = false := by simpa using h2
      by_cases h1 : _check_winner_for_label g ai = true
      · exfalso
        rw [forced_step hg hcombos] at hforced
        simp [h1, h2f] at hforced
      · have h1f : _check_winner_for_label g ai = false := by simpa using h1
        by_cases h3 : _board_full g = true
        · exfalso
          have hempty : emptyCells g = [] := (board_full_iff hg).mp h3
          rw [forced_step hg hcombos] at hforced
          cases mx <;> simp [h1f, h2f, hempty] at hforced
        · have h3f : _board_full g = false := by simpa using h3
          have hne0 : emptyCells g ≠ [] := fun h => h3 ((board_full_iff hg).mpr h)
          have hlen1 : 1 ≤ (emptyCells g).length := List.length_pos.mpr hne0
          obtain ⟨d2, rfl⟩ : ∃ d2, d = d2 + 1 := ⟨d - 1, by omega⟩
          rw [npScore.eq_def]
          simp only [h1f, h2f, h3f, Bool.false_eq_true, if_false]
          rw [forced_step hg hcombos] at hforced
          simp only [h1f, h2f, Bool.false_eq_true, if_false] at hforced
          cases mx with
          | true =>
            simp only [if_true]
            rw [npMaxFold_eq_foldl]
            simp only [Bool.not_true, Bool.false_eq_true, if_false,
              Bool.and_eq_true, List.all_eq_true] at hforced
            apply foldl_max_le _ _ (le_refl _)
            intro xv hxv
            obtain ⟨rc, hrc, rfl⟩ := List.mem_map.mp hxv
            have hrc2 : rc ∈ emptyCells g := hrc
            have hwf2 : WfBoard (place g rc ai) := by
              obtain ⟨hr, hc, -⟩ := (mem_emptyCells hg).mp hrc2
              exact wfBoard_setCell hg hr hc ai
            have hboth2 : ¬(_check_winner_for_label (place g rc ai) ai = true ∧
                _check_winner_for_label (place g rc ai) opp = true) := by
              rintro ⟨-, hb⟩
              rw [check_place hg hcombos hrc2 hne hopp] at hb
              exact h2 hb
            have hcount := length_emptyCells_place hg hrc2 hai
            exact ih (d2) (place g rc ai) false hwf2 hcombos hboth2
              (by omega) (by omega) (hforced.2 rc hrc2)
          | false =>
            simp only [Bool.false_eq_true, if_false]
            rw [npMinFold_eq_foldl]
            simp only [Bool.not_false, if_true, List.any_eq_true] at hforced
            obtain ⟨rc, hrc, hfc⟩ := hforced
            have hwf2 : WfBoard (place g rc opp) := by
              obtain ⟨hr, hc, -⟩ := (mem_emptyCells hg).mp hrc
              exact wfBoard_setCell hg hr hc opp
            have hboth2 : ¬(_check_winner_for_label (place g rc opp) ai = true ∧
                _check_winner_for_label (place g rc opp) opp = true) := by
              rintro ⟨ha, -⟩
              rw [check_place hg hcombos hrc (Ne.symm hne) hai] at ha
              exact h1 ha
            have hcount := length_emptyCells_place hg hrc hopp
            have hchild := ih (d2) (place g rc opp) true hwf2 hcombos hboth2
              (by omega) (by omega) hfc
            refine le_trans (foldl_min_le_of_mem _ _ _ ?_) hchild
            exact List.mem_map.mpr ⟨rc, hrc, rfl⟩

end TTT

namespace TTT

theorem sign_P2 (ai opp : String) (hai : ai ≠ "") (hopp : opp ≠ "") (hne : ai ≠ opp) :
    ∀ (n : Nat) (d : Nat) (g : Game) (mx : Bool),
      WfBoard g → g.winning_combos = WINNING_COMBOS_3 →
      ¬(_check_winner_for_label g ai = true ∧ _check_winner_for_label g opp = true) →
      (emptyCells g).length ≤ d → (emptyCells g).length ≤ n →
      forced opp ai n g (!mx) = false → 0 ≤ npScore ai opp d g mx := by
  intro n
  induction n with
  | zero =>
    intro d g mx hg hcombos hboth hd hn hforced
    by_cases h1 : _check_winner_for_label g ai = true
    · rw [npScore.eq_def]
      simp only [h1, if_true]
      omega
    · have h1f : _check_winner_for_label g ai = false := by simpa using h1
      by_cases h2 : _check_winner_for_label g opp = true
      · exfalso
        rw [forced_zero hg hcombos] at hforced
        simp [h2] at hforced
      · have h2f : _check_winner_for_label g opp = false := by simpa using h2
        by_cases h3 : _board_full g = true
        · rw [npScore.eq_def]
          simp [h1f, h2f, h3]
        · exfalso
          have hne0 : emptyCells g ≠ [] := fun h => h3 ((board_full_iff hg).mpr h)
          have hlen1 : 1 ≤ (emptyCells g).length := List.length_pos.mpr hne0
          omega
  | succ f ih =>
    intro d g mx hg hcombos hboth hd hn hforced
    by_cases h1 : _check_winner_for_label g ai = true
    · rw [npScore.eq_def]
      simp only [h1, if_true]
      omega
    · have h1f : _check_winner_for_label g ai = false := by simpa using h1
      by_cases h2 : _check_winner_for_label g opp = true
      · exfalso
        rw [forced_step hg hcombos] at hforced
        simp [h2] at hforced
      · have h2f : _check_winner_for_label g opp = false := by simpa using h2
        by_cases h3 : _board_full g = true
        · rw [npScore.eq_def]
          simp [h1f, h2f, h3]
        · have h3f : _board_full g = false := by simpa using h3
          have hne0 : emptyCells g ≠ [] := fun h => h3 ((board_full_iff hg).mpr h)
          have hlen1 : 1 ≤ (emptyCells g).length := List.length_pos.mpr hne0
          obtain ⟨d2, rfl⟩ : ∃ d2, d = d2 + 1 := ⟨d - 1, by omega⟩
          rw [npScore.eq_def]
          simp only [h1f, h2f, h3f, Bool.false_eq_true, if_false]
          rw [forced_step hg hcombos] at hforced
          simp only [h1f, h2f, Bool.false_eq_true, if_false] at hforced
          cases mx with
          | true =>
            simp only [if_true]
            rw [npMaxFold_eq_foldl]
            simp only [Bool.not_true, Bool.false_eq_true, if_false,
              Bool.and_eq_true, not_and, List.isEmpty_eq_false, Bool.and_eq_false_iff,
              List.isEmpty_iff, List.all_eq_false] at hforced
            rcases hforced with hforced | hforced
            · simp at hforced
              exact absurd hforced hne0
            · obtain ⟨rc, hrc, hfc⟩ := hforced
              have hwf2 : WfBoard (place g rc ai) := by
                obtain ⟨hr, hc, -⟩ := (mem_emptyCells hg).mp hrc
                exact wfBoard_setCell hg hr hc ai
              have hboth2 : ¬(_check_winner_for_label (place g rc ai) ai = true ∧
                  _check_winner_for_label (place g rc ai) opp = true) := by
                rintro ⟨-, hb⟩
                rw [check_place hg hcombos hrc hne hopp] at hb
                exact h2 hb
              have hcount := length_emptyCells_place hg hrc hai
              have hchild := ih (d2) (place g rc ai) false hwf2 hcombos hboth2
                (by omega) (by omega) (by simpa using hfc)
              refine le_trans hchild (foldl_max_ge_of_mem _ _ _ ?_)
              exact List.mem_map.mpr ⟨rc, hrc, rfl⟩
          | false =>
            simp only [Bool.false_eq_true, if_false]
            rw [npMinFold_eq_foldl]
            simp only [Bool.not_false, if_true, List.any_eq_false] at hforced
            apply foldl_min_ge _ _ (by omega)
            intro xv hxv
            obtain ⟨rc, hrc, rfl⟩ := List.mem_map.mp hxv
            have hrc2 : rc ∈ emptyCells g := hrc
            have hwf2 : WfBoard (place g rc opp) := by
              obtain ⟨hr, hc, -⟩ := (mem_emptyCells hg).mp hrc2
              exact wfBoard_setCell hg hr hc opp
            have hboth2 : ¬(_check_winner_for_label (place g rc opp) ai = true ∧
                _check_winner_for_label (place g rc opp) opp = true) := by
              rintro ⟨ha, -⟩
              rw [check_place hg hcombos hrc2 (Ne.symm hne) hai] at ha
              exact h1 ha
            have hcount := length_emptyCells_place hg hrc2 hopp
            exact ih (d2) (place g rc opp) true hwf2 hcombos hboth2
              (by omega) (by omega) (by simpa using hforced rc hrc2)

theorem sign_Q2 (ai opp : String) (hai : ai ≠ "") (hopp : opp ≠ "") (hne : ai ≠ opp) :
    ∀ (n : Nat) (d : Nat) (g : Game) (mx : Bool),
      WfBoard g → g.winning_combos = WINNING_COMBOS_3 →
      ¬(_check_winner_for_label g ai = true ∧ _check_winner_for_label g opp = true) →
      (emptyCells g).length ≤ d → (emptyCells g).length ≤ n →
      forced ai opp n g mx = false → npScore ai opp d g mx ≤ 0 := by
  intro n
  induction n with
  | zero =>
    intro d g mx hg hcombos hboth hd hn hforced
    by_cases h1 : _check_winner_for_label g ai = true
    · exfalso
      rw [forced_zero hg hcombos] at hforced
      simp [h1] at hforced
    · have h1f : _check_winner_for_label g ai = false := by simpa using h1
      by_cases h2 : _check_winner_for_label g opp = true
      · rw [npScore.eq_def]
        simp only [h1f, h2, Bool.false_eq_true, if_false, if_true]
        omega
      · have h2f : _check_winner_for_label g opp = false := by simpa using h2
        by_cases h3 : _board_full g = true
        · rw [npScore.eq_def]
          simp [h1f, h2f, h3]
        · exfalso
          have hne0 : emptyCells g ≠ [] := fun h => h3 ((board_full_iff hg).mpr h)
          have hlen1 : 1 ≤ (emptyCells g).length := List.length_pos.mpr hne0
          omega
  | succ f ih =>
    intro d g mx hg hcombos hboth hd hn hforced
    by_cases h1 : _check_winner_for_label g ai = true
    · exfalso
      rw [forced_step hg hcombos] at hforced
      simp [h1] at hforced
    · have h1f : _check_winner_for_label g ai = false := by simpa using h1
      by_cases h2 : _check_winner_for_label g opp = true
      · rw [npScore.eq_def]
        simp only [h1f, h2, Bool.false_eq_true, if_false, if_true]
        omega
      · have h2f : _check_winner_for_label g opp = false := by simpa using h2
        by_cases h3 : _board_full g = true
        · rw [npScore.eq_def]
          simp [h1f, h2f, h3]
        · have h3f : _board_full g = false := by simpa using h3
          have hne0 : emptyCells g ≠ [] := fun h => h3 ((board_full_iff hg).mpr h)
          have hlen1 : 1 ≤ (emptyCells g).length := List.length_pos.mpr hne0
          obtain ⟨d2, rfl⟩ : ∃ d2, d = d2 + 1 := ⟨d - 1, by omega⟩
          rw [npScore.eq_def]
          simp only [h1f, h2f, h3f, Bool.false_eq_true, if_false]
          rw [forced_step hg hcombos] at hforced
          simp only [h1f, h2f, Bool.false_eq_true, if_false] at hforced
          cases mx with
          | true =>
            simp only [if_true]
            rw [npMaxFold_eq_foldl]
            simp only [if_true, List.any_eq_false] at hforced
            apply foldl_max_le _ _ (by omega)
            intro xv hxv
            obtain ⟨rc, hrc, rfl⟩ := List.mem_map.mp hxv
            have hrc2 : rc ∈ emptyCells g := hrc
            have hwf2 : WfBoard (place g rc ai) := by
              obtain ⟨hr, hc, -⟩ := (mem_emptyCells hg).mp hrc2
              exact wfBoard_setCell hg hr hc ai
            have hboth2 : ¬(_check_winner_for_label (place g rc ai) ai = true ∧
                _check_winner_for_label (place g rc ai) opp = true) := by
              rintro ⟨-, hb⟩
              rw [check_place hg hcombos hrc2 hne hopp] at hb
              exact h2 hb
            have hcount := length_emptyCells_place hg hrc2 hai
            exact ih (d2) (place g rc ai) false hwf2 hcombos hboth2
              (by omega) (by omega) (by simpa using hforced rc hrc2)
          | false =>
            simp only [Bool.false_eq_true, if_false]
            rw [npMinFold_eq_foldl]
            simp only [Bool.false_eq_true, if_false, Bool.and_eq_false_iff,
              List.isEmpty_eq_false, List.all_eq_false] at hforced
            rcases hforced with hforced | hforced
            · simp at hforced
              exact absurd hforced hne0
            · obtain ⟨rc, hrc, hfc⟩ := hforced
              have hwf2 : WfBoard (place g rc opp) := by
                obtain ⟨hr, hc, -⟩ := (mem_emptyCells hg).mp hrc
                exact wfBoard_setCell hg hr hc opp
              have hboth2 : ¬(_check_winner_for_label (place g rc opp) ai = true ∧
                  _check_winner_for_label (place g rc opp) opp = true) := by
                rintro ⟨ha, -⟩
                rw [check_place hg hcombos hrc (Ne.symm hne) hai] at ha
                exact h1 ha
              have hcount := length_emptyCells_place hg hrc hopp
              have hchild := ih (d2) (place g rc opp) true hwf2 hcombos hboth2
                (by omega) (by omega) (by simpa using hfc)
              refine le_trans (foldl_min_le_of_mem _ _ _ ?_) hchild
              exact List.mem_map.mpr ⟨rc, hrc, rfl⟩

end TTT

namespace TTT

theorem weight_bound (r c : Nat) :
    0 ≤ (POSITION_WEIGHTS.getD r []).getD c 0 ∧ (POSITION_WEIGHTS.getD r []).getD c 0 ≤ 3 := by
  rcases r with _ | _ | _ | r <;> rcases c with _ | _ | _ | c <;>
    simp [POSITION_WEIGHTS, List.getD] <;> omega

theorem evaluate_line_bound (g : Game) (combo : List (Int × Int)) :
    -100 ≤ evaluate_line g combo ∧ evaluate_line g combo ≤ 100 := by
  simp only [evaluate_line]
  split_ifs <;> omega

theorem foldl_add_bound {X : Type} {f : X → Int} {M : Int} :
    ∀ (l : List X) (b : Int), (∀ x ∈ l, -M ≤ f x ∧ f x ≤ M) →
      b - M * l.length ≤ l.foldl (fun s x => s + f x) b ∧
        l.foldl (fun s x => s + f x) b ≤ b + M * l.length := by
  intro l
  induction l with
  | nil => intro b _; simp
  | cons x xs ih =>
    intro b h
    rw [List.foldl_cons]
    have hx := h x (by simp)
    have := ih (b + f x) (fun z hz => h z (by simp [hz]))
    simp only [List.length_cons]
    constructor <;> [skip; skip] <;> (push_cast; nlinarith [this.1, this.2, hx.1, hx.2])

theorem foldl_pm_bound {X : Type} {step : Int → X → Int} {M : Int} (hM : 0 ≤ M)
    (hstep : ∀ s x, step s x ≤ s + M ∧ s - M ≤ step s x) :
    ∀ (l : List X) (b : Int),
      b - M * l.length ≤ l.foldl step b ∧ l.foldl step b ≤ b + M * l.length := by
  intro l
  induction l with
  | nil => intro b; simp
  | cons x xs ih =>
    intro b
    rw [List.foldl_cons]
    have hx := hstep b x
    have := ih (step b x)
    simp only [List.length_cons]
    constructor <;> (push_cast; nlinarith [this.1, this.2, hx.1, hx.2])

theorem evaluate_position_bound (g : Game) (hg : WfBoard g) :
    -27 ≤ evaluate_position g ∧ evaluate_position g ≤ 27 := by
  unfold evaluate_position
  rw [hg.1]
  have hstep : ∀ (s : Int) (rc : Nat × Nat),
      (fun score rc =>
        let label := (getCell g rc.1 rc.2).label
        let cell_value : Int :=
          if rc.1 < 3 && rc.2 < 3 then (POSITION_WEIGHTS.getD rc.1 []).getD rc.2 0 else 0
        if label == g.current_player.label then score + cell_value
        else if label == (if g.current_player.label == "X" then "O" else "X") then
          score - cell_value
        else score) s rc ≤ s + 3 ∧
      s - 3 ≤ (fun score rc =>
        let label := (getCell g rc.1 rc.2).label
        let cell_value : Int :=
          if rc.1 < 3 && rc.2 < 3 then (POSITION_WEIGHTS.getD rc.1 []).getD rc.2 0 else 0
        if label == g.current_player.label then score + cell_value
        else if label == (if g.current_player.label == "X" then "O" else "X") then
          score - cell_value
        else score) s rc := by
    intro s rc
    have := weight_bound rc.1 rc.2
    dsimp only
    split_ifs <;> omega
  have := foldl_pm_bound (by omega) hstep (allCells 3) 0
  have hlen : (allCells 3).length = 9 := by decide
  rw [hlen] at this
  constructor <;> [exact le_trans (by omega) this.1; exact le_trans this.2 (by omega)]

theorem evaluate_board_bound (g : Game) (hg : WfBoard g)
    (hcombos : g.winning_combos = WINNING_COMBOS_3) :
    -998 ≤ evaluate_board g ∧ evaluate_board g ≤ 998 := by
  unfold evaluate_board
  rw [hcombos]
  have hthreat := @foldl_add_bound _ (fun combo => evaluate_line g combo) 100
    WINNING_COMBOS_3 0 (fun cb _ => evaluate_line_bound g cb)
  have hlen : (WINNING_COMBOS_3.length : Int) = 8 := by decide
  have hpos := evaluate_position_bound g hg
  rw [hlen] at hthreat
  simp only [] at hthreat
  omega

end TTT

namespace TTT

/-- All scores of the pruning-free search live within `±(1000 + depth)`. -/
theorem np_bound (ai opp : String) :
    ∀ (d : Nat) (g : Game) (mx : Bool), WfBoard g →
      g.winning_combos = WINNING_COMBOS_3 →
      -(1000 + (d : Int)) ≤ npScore ai opp d g mx ∧ npScore ai opp d g mx ≤ 1000 + d := by
  intro d
  induction d with
  | zero =>
    intro g mx hg hcombos
    rw [npScore.eq_def]
    simp only []
    have := evaluate_board_bound g hg hcombos
    split_ifs <;> constructor <;> push_cast <;> omega
  | succ d2 ih =>
    intro g mx hg hcombos
    rw [npScore.eq_def]
    by_cases h1 : _check_winner_for_label g ai = true
    · simp only [h1, if_true]
      constructor <;> push_cast <;> omega
    by_cases h2 : _check_winner_for_label g opp = true
    · simp only [h1, h2, Bool.false_eq_true, if_false, if_true]
      constructor <;> push_cast <;> omega
    by_cases h3 : _board_full g = true
    · simp only [h1, h2, h3, Bool.false_eq_true, if_false, if_true]
      constructor <;> push_cast <;> omega
    simp only [h1, h2, h3, Bool.false_eq_true, if_false]
    have hchild : ∀ lab (mx2 : Bool), ∀ rc ∈ emptyCells g,
        -(1000 + (d2 : Int)) ≤ npScore ai opp d2 (place g rc lab) mx2 ∧
          npScore ai opp d2 (place g rc lab) mx2 ≤ 1000 + d2 := by
      intro lab mx2 rc hrc
      obtain ⟨hr, hc, -⟩ := (mem_emptyCells hg).mp hrc
      exact ih (place g rc lab) mx2 (wfBoard_setCell hg hr hc lab) hcombos
    cases mx with
    | true =>
      simp only [if_true]
      rw [npMaxFold_eq_foldl]
      constructor
      · refine le_trans ?_ (foldl_max_ge_init _ _)
        push_cast
        omega
      · apply foldl_max_le _ _ (by push_cast; omega)
        intro xv hxv
        obtain ⟨rc, hrc, rfl⟩ := List.mem_map.mp hxv
        have := (hchild ai false rc hrc).2
        push_cast
        push_cast at this
        omega
    | false =>
      simp only [Bool.false_eq_true, if_false]
      rw [npMinFold_eq_foldl]
      constructor
      · apply foldl_min_ge _ _ (by push_cast; omega)
        intro xv hxv
        obtain ⟨rc, hrc, rfl⟩ := List.mem_map.mp hxv
        have := (hchild opp true rc hrc).1
        push_cast
        push_cast at this
        omega
      · refine le_trans (foldl_min_le_init _ _) ?_
        push_cast
        omega

end TTT

namespace TTT

theorem topLoopS_some (recur : Game → Int → Int) (lab : String) (g : Game) :
    ∀ (cells : List (Nat × Nat)) (best : Int) (rcp : Nat × Nat) (alpha : Int),
      ∃ rc1, topLoopS recur lab g cells best (some rcp) alpha = some rc1 := by
  intro cells
  induction cells with
  | nil => intro best rcp alpha; exact ⟨rcp, rfl⟩
  | cons rc rest ih =>
    intro best rcp alpha
    rw [topLoopS]
    by_cases hemp : ((getCell g rc.1 rc.2).label == "") = true
    · simp only [hemp, if_true]
      by_cases himp : best < recur (setCell g rc.1 rc.2 ⟨rc.1, rc.2, lab⟩) alpha
      · simp only [himp, if_true]
        exact ih _ _ _
      · simp only [himp, if_false]
        exact ih _ _ _
    · have hempf : ((getCell g rc.1 rc.2).label == "") = false := by
        simpa using hemp
      simp only [hempf, Bool.false_eq_true, if_false]
      exact ih _ _ _

theorem topLoopS_max (ai opp : String) (d : Nat) (g : Game) :
    ∀ (cells : List (Nat × Nat)) (best : Int) (bm : Option (Nat × Nat)) (alpha : Int),
      alpha = best → best ≤ 9998 →
      (∀ rc ∈ cells, (getCell g rc.1 rc.2).label = "" →
        -9998 ≤ npScore ai opp d (setCell g rc.1 rc.2 ⟨rc.1, rc.2, ai⟩) false ∧
          npScore ai opp d (setCell g rc.1 rc.2 ⟨rc.1, rc.2, ai⟩) false ≤ 9998) →
      (∀ rcp, bm = some rcp →
        best = npScore ai opp d (setCell g rcp.1 rcp.2 ⟨rcp.1, rcp.2, ai⟩) false) →
      ∀ rc0, topLoopS (fun g1 a => minmaxS ai opp d g1 false a 9999) ai g cells best bm alpha
          = some rc0 →
        (bm = some rc0 ∨ (rc0 ∈ cells ∧ (getCell g rc0.1 rc0.2).label = "")) ∧
        best ≤ npScore ai opp d (setCell g rc0.1 rc0.2 ⟨rc0.1, rc0.2, ai⟩) false ∧
        (∀ rc ∈ cells, (getCell g rc.1 rc.2).label = "" →
          npScore ai opp d (setCell g rc.1 rc.2 ⟨rc.1, rc.2, ai⟩) false ≤
            npScore ai opp d (setCell g rc0.1 rc0.2 ⟨rc0.1, rc0.2, ai⟩) false) := by
  intro cells
  induction cells with
  | nil =>
    intro best bm alpha h1 h2 hcb hbm rc0 hres
    rw [topLoopS] at hres
    exact ⟨Or.inl hres, le_of_eq (hbm rc0 hres),
      fun rc hrc _ => absurd hrc (List.not_mem_nil rc)⟩
  | cons rc rest ih =>
    intro best bm alpha h1 h2 hcb hbm rc0 hres
    rw [topLoopS] at hres
    by_cases hemp : ((getCell g rc.1 rc.2).label == "") = true
    · simp only [hemp, if_true] at hres
      have hempP : (getCell g rc.1 rc.2).label = "" := by simpa using hemp
      have hbnd := hcb rc (by simp) hempP
      obtain ⟨ca, cb, cc⟩ := km_main ai opp d (setCell g rc.1 rc.2 ⟨rc.1, rc.2, ai⟩)
        false alpha 9999 (by omega)
      by_cases himp : best <
          minmaxS ai opp d (setCell g rc.1 rc.2 ⟨rc.1, rc.2, ai⟩) false alpha 9999
      · simp only [himp, if_true] at hres
        have hseq : minmaxS ai opp d (setCell g rc.1 rc.2 ⟨rc.1, rc.2, ai⟩) false alpha 9999
            = npScore ai opp d (setCell g rc.1 rc.2 ⟨rc.1, rc.2, ai⟩) false := by
          rcases lt_or_le
            (minmaxS ai opp d (setCell g rc.1 rc.2 ⟨rc.1, rc.2, ai⟩) false alpha 9999)
            9999 with hlt | hge
          · exact cc (by omega) hlt
          · have := cb (by omega)
            omega
        obtain ⟨hor, hbest, hall⟩ := ih
          (minmaxS ai opp d (setCell g rc.1 rc.2 ⟨rc.1, rc.2, ai⟩) false alpha 9999)
          (some rc)
          (max alpha (minmaxS ai opp d (setCell g rc.1 rc.2 ⟨rc.1, rc.2, ai⟩) false alpha 9999))
          (by omega) (by omega)
          (fun rc2 hrc2 he2 => hcb rc2 (by simp [hrc2]) he2)
          (fun rcp hp => by
            injection hp with hp2
            rw [← hp2]
            exact hseq)
          rc0 hres
        refine ⟨?_, by omega, ?_⟩
        · rcases hor with h | h
          · injection h with h2
            right
            rw [← h2]
            exact ⟨by simp, hempP⟩
          · exact Or.inr ⟨by simp [h.1], h.2⟩
        · intro rc2 hrc2 he2
          rcases List.mem_cons.mp hrc2 with he | he
          · rw [he]
            omega
          · exact hall rc2 he he2
      · simp only [himp, if_false] at hres
        have hnple := ca (by omega)
        obtain ⟨hor, hbest, hall⟩ := ih best bm alpha h1 h2
          (fun rc2 hrc2 he2 => hcb rc2 (by simp [hrc2]) he2) hbm rc0 hres
        refine ⟨?_, hbest, ?_⟩
        · rcases hor with h | h
          · exact Or.inl h
          · exact Or.inr ⟨by simp [h.1], h.2⟩
        · intro rc2 hrc2 he2
          rcases List.mem_cons.mp hrc2 with he | he
          · rw [he]
            omega
          · exact hall rc2 he he2
    · have hempf : ((getCell g rc.1 rc.2).label == "") = false := by
        simpa using hemp
      simp only [hempf, Bool.false_eq_true, if_false] at hres
      obtain ⟨hor, hbest, hall⟩ := ih best bm alpha h1 h2
        (fun rc2 hrc2 he2 => hcb rc2 (by simp [hrc2]) he2) hbm rc0 hres
      refine ⟨?_, hbest, ?_⟩
      · rcases hor with h | h
        · exact Or.inl h
        · exact Or.inr ⟨by simp [h.1], h.2⟩
      · intro rc2 hrc2 he2
        rcases List.mem_cons.mp hrc2 with he | he
        · exfalso
          rw [he] at he2
          simp [he2] at hempf
        · exact hall rc2 he he2

theorem topLoopS_nonempty (ai opp : String) (d : Nat) (g : Game) :
    ∀ (cells : List (Nat × Nat)) (best alpha : Int),
      alpha = best → best = -9999 →
      (∀ rc ∈ cells, (getCell g rc.1 rc.2).label = "" →
        -9998 ≤ npScore ai opp d (setCell g rc.1 rc.2 ⟨rc.1, rc.2, ai⟩) false) →
      (∃ rc ∈ cells, (getCell g rc.1 rc.2).label = "") →
      ∃ rc1, topLoopS (fun g1 a => minmaxS ai opp d g1 false a 9999) ai g cells best none alpha
        = some rc1 := by
  intro cells
  induction cells with
  | nil =>
    intro best alpha _ _ _ hex
    obtain ⟨rc, hrc, -⟩ := hex
    exact absurd hrc (List.not_mem_nil rc)
  | cons rc rest ih =>
    intro best alpha h1 h2 hcb hex
    rw [topLoopS]
    by_cases hemp : ((getCell g rc.1 rc.2).label == "") = true
    · simp only [hemp, if_true]
      have hempP : (getCell g rc.1 rc.2).label = "" := by simpa using hemp
      obtain ⟨ca, -, -⟩ := km_main ai opp d (setCell g rc.1 rc.2 ⟨rc.1, rc.2, ai⟩)
        false alpha 9999 (by omega)
      have hgt : best <
          minmaxS ai opp d (setCell g rc.1 rc.2 ⟨rc.1, rc.2, ai⟩) false alpha 9999 := by
        by_contra hle
        have := ca (by omega)
        have := hcb rc (by simp) hempP
        omega
      simp only [hgt, if_true]
      exact topLoopS_some _ _ _ _ _ _ _
    · have hempf : ((getCell g rc.1 rc.2).label == "") = false := by
        simpa using hemp
      simp only [hempf, Bool.false_eq_true, if_false]
      apply ih best alpha h1 h2 (fun rc2 hrc2 he2 => hcb rc2 (by simp [hrc2]) he2)
      obtain ⟨rc2, hrc2, he2⟩ := hex
      rcases List.mem_cons.mp hrc2 with he | he
      · exfalso
        rw [he] at he2
        simp [he2] at hempf
      · exact ⟨rc2, he, he2⟩

end TTT

namespace TTT

theorem wf_emptyG : WfBoard emptyG := by decide

set_option maxHeartbeats 40000000 in
theorem forcedM_true9 : forcedM 9 0 0 true = false := by decide

set_option maxHeartbeats 40000000 in
theorem forcedM_false9 : forcedM 9 0 0 false = false := by decide

/-- Neither player can force a completed line from the empty board,
whoever moves first. -/
theorem forced_empty_false {l o : String} (hl : l ≠ "") (ho : o ≠ "") (hlo : l ≠ o)
    (mv : Bool) : forced l o 9 emptyG mv = false := by
  rw [forced_eq_forcedM l o hl ho hlo 9 emptyG 0 0 mv wf_emptyG (maskRel_empty hl ho)]
  cases mv
  · exact forcedM_false9
  · exact forcedM_true9

/-- The pruning-free search value of the empty board at exhaustive depth
is the draw score 0. -/
theorem npScore_empty (ai opp : String) (hai : ai ≠ "") (hopp : opp ≠ "") (hne : ai ≠ opp)
    (d : Nat) (hd : 9 ≤ d) (mx : Bool) :
    npScore ai opp d emptyG mx = 0 := by
  have hwf : WfBoard emptyG := wf_emptyG
  have hcombos : emptyG.winning_combos = WINNING_COMBOS_3 := rfl
  have hchk : ∀ lab : String, lab ≠ "" → _check_winner_for_label emptyG lab = false := by
    intro lab hlab
    rw [check_winner_eq_hasLineN hwf hcombos,
      hasLineN_eq_hasLineM (fun rc hrc => ((maskRel_empty hlab hlab) rc hrc).1)]
    decide
  have hboth : ¬(_check_winner_for_label emptyG ai = true ∧
      _check_winner_for_label emptyG opp = true) := by
    rintro ⟨ha, -⟩
    rw [hchk ai hai] at ha
    simp at ha
  have hlen : (emptyCells emptyG).length = 9 := by decide
  have hge := sign_P2 ai opp hai hopp hne 9 d emptyG mx hwf hcombos hboth (by omega) (by omega)
    (forced_empty_false hopp hai (Ne.symm hne) (!mx))
  have hle := sign_Q2 ai opp hai hopp hne 9 d emptyG mx hwf hcombos hboth (by omega) (by omega)
    (forced_empty_false hai hopp hne mx)
  omega

/-- The minimizing loop never returns more than its running best seed. -/
theorem abLoopMinS_le_seed (recur : Game → Int → Int) (lab : String) (alpha : Int) (g : Game) :
    ∀ (cells : List (Nat × Nat)) (best beta : Int),
      abLoopMinS recur lab alpha g cells best beta ≤ best := by
  intro cells
  induction cells with
  | nil =>
    intro best beta
    rw [abLoopMinS]
  | cons rc rest ih =>
    intro best beta
    rw [abLoopMinS]
    by_cases hemp : ((getCell g rc.1 rc.2).label == "") = true
    · simp only [hemp, if_true]
      by_cases hcut : min beta
          (min best (recur (setCell g rc.1 rc.2 ⟨rc.1, rc.2, lab⟩) beta)) ≤ alpha
      · simp only [hcut, if_true]
        exact min_le_left _ _
      · simp only [hcut, if_false]
        exact le_trans (ih _ _) (min_le_left _ _)
    · have hempf : ((getCell g rc.1 rc.2).label == "") = false := by simpa using hemp
      simp only [hempf, Bool.false_eq_true, if_false]
      exact ih _ _

/-- A minimizing node scores at most the 999 sentinel unless the
maximizing label has already completed a line. -/
theorem minmaxS_min_cases (ai opp : String) (d : Nat) (g : Game) (a b : Int)
    (hg : WfBoard g) (hcombos : g.winning_combos = WINNING_COMBOS_3) :
    minmaxS ai opp d g false a b ≤ 999 ∨ _check_winner_for_label g ai = true := by
  rw [minmaxS.eq_def]
  by_cases hw1 : _check_winner_for_label g ai = true
  · exact Or.inr hw1
  · have h1f : _check_winner_for_label g ai = false := by simpa using hw1
    left
    simp only [h1f, Bool.false_eq_true, if_false]
    by_cases hw2 : _check_winner_for_label g opp = true
    · simp only [hw2, if_true]
      omega
    · have h2f : _check_winner_for_label g opp = false := by simpa using hw2
      simp only [h2f, Bool.false_eq_true, if_false]
      by_cases hw3 : _board_full g = true
      · simp only [hw3, if_true]
        omega
      · have h3f : _board_full g = false := by simpa using hw3
        simp only [h3f, Bool.false_eq_true, if_false]
        cases d with
        | zero =>
          simp only []
          have := evaluate_board_bound g hg hcombos
          omega
        | succ d2 =>
          simp only [Bool.false_eq_true, if_false]
          exact abLoopMinS_le_seed _ _ _ _ _ _ _

end TTT

namespace TTT

/-- Safety of the top-level loop at exhaustive depth: whatever move it
returns, the opponent cannot force a win after it, provided some
remaining candidate (or the carried best move) is safe, or the running
best score is already nonnegative. -/
theorem topLoopS_safe (ai opp : String) (hai : ai ≠ "") (hopp : opp ≠ "") (hne : ai ≠ opp)
    (d : Nat) (hd : 8 ≤ d) (g : Game) (hg : WfBoard g)
    (hcombos : g.winning_combos = WINNING_COMBOS_3)
    (h2 : _check_winner_for_label g opp = false) :
    ∀ (cells : List (Nat × Nat)) (best : Int) (bm : Option (Nat × Nat)) (alpha : Int),
      cells ⊆ allCells 3 → alpha = best →
      (∀ rcp, bm = some rcp → rcp ∈ emptyCells g ∧
        ((forced opp ai 8 (place g rcp ai) true = false ∧ 9999 ≤ best) ∨
          best = npScore ai opp d (place g rcp ai) false)) →
      ((∃ rc2 ∈ cells, (getCell g rc2.1 rc2.2).label = "" ∧
          forced opp ai 8 (place g rc2 ai) true = false) ∨
        (∃ rcp, bm = some rcp ∧ forced opp ai 8 (place g rcp ai) true = false) ∨
        0 ≤ best) →
      ∀ rc0,
        topLoopS (fun g1 a => minmaxS ai opp d g1 false a 9999) ai g cells best bm alpha
          = some rc0 →
        forced opp ai 8 (place g rc0 ai) true = false := by
  have hlen9 : (emptyCells g).length ≤ 9 := by
    unfold emptyCells
    rw [hg.1]
    exact le_trans (List.length_filter_le _ _) (by decide)
  have hchild : ∀ rc ∈ allCells 3, (getCell g rc.1 rc.2).label = "" →
      WfBoard (place g rc ai) ∧ (place g rc ai).winning_combos = WINNING_COMBOS_3 ∧
      _check_winner_for_label (place g rc ai) opp = false ∧
      (emptyCells (place g rc ai)).length ≤ 8 := by
    intro rc hrc he
    obtain ⟨hr1, hr2⟩ := mem_allCells2.mp hrc
    have hrcE : rc ∈ emptyCells g := (mem_emptyCells hg).mpr ⟨hr1, hr2, he⟩
    refine ⟨wfBoard_setCell hg hr1 hr2 ai, hcombos, ?_, ?_⟩
    · rw [check_place hg hcombos hrcE hne hopp]
      exact h2
    · have := length_emptyCells_place hg hrcE hai
      omega
  have hsafe_np : ∀ rc ∈ allCells 3, (getCell g rc.1 rc.2).label = "" →
      forced opp ai 8 (place g rc ai) true = false →
      0 ≤ npScore ai opp d (place g rc ai) false := by
    intro rc hrc he hs
    obtain ⟨hwf, hcb, hno, hlen⟩ := hchild rc hrc he
    exact sign_P2 ai opp hai hopp hne 8 d (place g rc ai) false hwf hcb
      (by rintro ⟨-, hbb⟩; rw [hbb] at hno; cases hno) (by omega) (by omega) hs
  have hnp_safe : ∀ rc ∈ allCells 3, (getCell g rc.1 rc.2).label = "" →
      -999 < npScore ai opp d (place g rc ai) false →
      forced opp ai 8 (place g rc ai) true = false := by
    intro rc hrc he hnp
    cases hf : forced opp ai 8 (place g rc ai) true with
    | false => rfl
    | true =>
      exfalso
      obtain ⟨hwf, hcb, hno, hlen⟩ := hchild rc hrc he
      have := sign_P1 ai opp hai hopp hne 8 d (place g rc ai) false hwf hcb
        (by rintro ⟨-, hbb⟩; rw [hbb] at hno; cases hno) (by omega) (by omega) hf
      omega
  have hbig_safe : ∀ rc ∈ allCells 3, (getCell g rc.1 rc.2).label = "" →
      ∀ a : Int, 1000 ≤ minmaxS ai opp d (place g rc ai) false a 9999 →
      forced opp ai 8 (place g rc ai) true = false := by
    intro rc hrc he a hbig
    obtain ⟨hwf, hcb, hno, hlen⟩ := hchild rc hrc he
    rcases minmaxS_min_cases ai opp d (place g rc ai) a 9999 hwf hcb with hle | hwin
    · omega
    · have h8 : (8 : Nat) = 7 + 1 := rfl
      rw [h8, forced_step hwf hcb]
      simp [hno, hwin]
  intro cells
  induction cells with
  | nil =>
    intro best bm alpha hsub h1a hA hB rc0 hres
    rw [topLoopS] at hres
    obtain ⟨hmemE, hA2⟩ := hA rc0 hres
    rcases hA2 with ⟨hsafe, -⟩ | hnp
    · exact hsafe
    · rcases hB with ⟨rc2, hrc2, -⟩ | ⟨rcp, hp, hsafe⟩ | hpos
      · exact absurd hrc2 (List.not_mem_nil rc2)
      · rw [hres] at hp
        injection hp with he
        rw [he]
        exact hsafe
      · obtain ⟨hm1, hm2, hm3⟩ := (mem_emptyCells hg).mp hmemE
        exact hnp_safe rc0 (mem_allCells2.mpr ⟨hm1, hm2⟩) hm3 (by omega)
  | cons rc rest ih =>
    intro best bm alpha hsub h1a hA hB rc0 hres
    have hsubr : rest ⊆ allCells 3 := fun x hx => hsub (List.mem_cons_of_mem _ hx)
    have hrcA : rc ∈ allCells 3 := hsub (List.mem_cons_self _ _)
    rw [topLoopS] at hres
    by_cases hemp : ((getCell g rc.1 rc.2).label == "") = true
    · have hempP : (getCell g rc.1 rc.2).label = "" := by simpa using hemp
      obtain ⟨hr1, hr2⟩ := mem_allCells2.mp hrcA
      have hrcE : rc ∈ emptyCells g := (mem_emptyCells hg).mpr ⟨hr1, hr2, hempP⟩
      simp only [hemp, if_true] at hres
      have hplace : setCell g rc.1 rc.2 (⟨rc.1, rc.2, ai⟩ : Move) = place g rc ai := rfl
      rw [hplace] at hres
      by_cases himp : best < minmaxS ai opp d (place g rc ai) false alpha 9999
      · simp only [himp, if_true] at hres
        have hkey : (forced opp ai 8 (place g rc ai) true = false ∧
            9999 ≤ minmaxS ai opp d (place g rc ai) false alpha 9999) ∨
            minmaxS ai opp d (place g rc ai) false alpha 9999
              = npScore ai opp d (place g rc ai) false := by
          rcases lt_or_le (minmaxS ai opp d (place g rc ai) false alpha 9999) 9999
            with hlt | hge
          · obtain ⟨-, -, cc⟩ := km_main ai opp d (place g rc ai) false alpha 9999 (by omega)
            exact Or.inr (cc (by omega) hlt)
          · exact Or.inl ⟨hbig_safe rc hrcA hempP alpha (by omega), hge⟩
        refine ih _ _ _ hsubr (by omega) ?_ ?_ rc0 hres
        · intro rcp hp
          injection hp with he
          rw [← he]
          exact ⟨hrcE, hkey⟩
        · rcases hB with ⟨rc2, hrc2, he2, hsafe2⟩ | ⟨rcp, hp, hsafe2⟩ | hpos
          · rcases List.mem_cons.mp hrc2 with heq | hmem
            · exact Or.inr (Or.inl ⟨rc, rfl, heq ▸ hsafe2⟩)
            · exact Or.inl ⟨rc2, hmem, he2, hsafe2⟩
          · obtain ⟨hmemE, hA2⟩ := hA rcp hp
            rcases hA2 with ⟨-, hhuge⟩ | hnp
            · exact Or.inr (Or.inr (by omega))
            · obtain ⟨hp1, hp2, hp3⟩ := (mem_emptyCells hg).mp hmemE
              have := hsafe_np rcp (mem_allCells2.mpr ⟨hp1, hp2⟩) hp3 hsafe2
              exact Or.inr (Or.inr (by omega))
          · exact Or.inr (Or.inr (by omega))
      · simp only [himp, if_false] at hres
        refine ih _ _ _ hsubr h1a hA ?_ rc0 hres
        rcases hB with ⟨rc2, hrc2, he2, hsafe2⟩ | hBo | hpos
        · rcases List.mem_cons.mp hrc2 with heq | hmem
          · subst heq
            rcases le_or_lt 9999 best with hb | hb
            · exact Or.inr (Or.inr (by omega))
            · obtain ⟨ca, -, -⟩ := km_main ai opp d (place g rc2 ai) false alpha 9999
                (by omega)
              have hca := ca (by omega)
              have hnp0 := hsafe_np rc2 hrcA he2 hsafe2
              exact Or.inr (Or.inr (by omega))
          · exact Or.inl ⟨rc2, hmem, he2, hsafe2⟩
        · exact Or.inr (Or.inl hBo)
        · exact Or.inr (Or.inr hpos)
    · have hempf : ((getCell g rc.1 rc.2).label == "") = false := by simpa using hemp
      simp only [hempf, Bool.false_eq_true, if_false] at hres
      refine ih _ _ _ hsubr h1a hA ?_ rc0 hres
      rcases hB with ⟨rc2, hrc2, he2, hsafe2⟩ | hBo | hpos
      · rcases List.mem_cons.mp hrc2 with heq | hmem
        · exfalso
          rw [heq] at he2
          simp [he2] at hempf
        · exact Or.inl ⟨rc2, hmem, he2, hsafe2⟩
      · exact Or.inr (Or.inl hBo)
      · exact Or.inr (Or.inr hpos)

end TTT

namespace TTT

/-- C4: with exhaustive search depth (depth limit at least 9, so the
depth-0 heuristic cutoff is never reached), (a) the minimax value of the
empty board at the source's root window is the drawn-game score 0, for
either assignment of marks, and (b) from any in-progress position the
move returned by the top-level search is never one after which the
opponent can force a win when the searcher had a move avoiding that. -/
theorem claim_C4 (md : Nat) (hmd : 9 ≤ md) (g : Game) (hg : WfBoard g)
    (hcombos : g.winning_combos = WINNING_COMBOS_3)
    (h1 : _check_winner_for_label g g.current_player.label = false)
    (h2 : _check_winner_for_label g
      (if g.current_player.label == "X" then "O" else "X") = false)
    (hcur : g.current_player.label = "X" ∨ g.current_player.label = "O") :
    (∀ ai opp : String, ai ≠ "" → opp ≠ "" → ai ≠ opp →
      _minmax ai opp md emptyG true (-9999) 9999 = (0, emptyG)) ∧
    (∀ rc : Nat × Nat,
      (get_minmax_move_depth g md).1 = some rc →
      (∃ rc2 ∈ emptyCells g,
        forced (if g.current_player.label == "X" then "O" else "X")
          g.current_player.label 8 (place g rc2 g.current_player.label) true = false) →
      forced (if g.current_player.label == "X" then "O" else "X")
        g.current_player.label 8 (place g rc g.current_player.label) true = false) := by
  constructor
  · intro ai opp hai hopp hne
    rw [minmax_eq_S ai opp md emptyG true (-9999) 9999 wf_emptyG]
    have hnp := npScore_empty ai opp hai hopp hne md (by omega) true
    obtain ⟨ca, cb, cc⟩ := km_main ai opp md emptyG true (-9999) 9999 (by omega)
    rw [hnp] at ca cb cc
    have hz : minmaxS ai opp md emptyG true (-9999) 9999 = 0 := by
      rcases le_or_lt (minmaxS ai opp md emptyG true (-9999) 9999) (-9999) with h | h
      · have := ca h
        omega
      · rcases le_or_lt 9999 (minmaxS ai opp md emptyG true (-9999) 9999) with hb | hb
        · have := cb hb
          omega
        · exact cc h hb
    rw [hz]
  · have hai : g.current_player.label ≠ "" := by
      rcases hcur with h | h <;> rw [h] <;> decide
    have hopp : (if g.current_player.label == "X" then "O" else "X") ≠ "" := by
      by_cases h : (g.current_player.label == "X") = true <;> simp [h]
    have hne : g.current_player.label ≠ (if g.current_player.label == "X" then "O" else "X") := by
      rcases hcur with h | h <;> rw [h] <;> decide
    intro rc hres havoid
    rw [get_minmax_move_eq_S g md hg] at hres
    simp only [get_minmax_move_S] at hres
    refine topLoopS_safe g.current_player.label
      (if g.current_player.label == "X" then "O" else "X") hai hopp hne
      (md - 1) (by omega) g hg hcombos h2
      (allCells g.board_size) (-9999) none (-9999)
      ?_ rfl ?_ ?_ rc hres
    · rw [hg.1]
      exact List.Subset.refl _
    · intro rcp hp
      simp at hp
    · obtain ⟨rc2, hrc2, hsafe2⟩ := havoid
      obtain ⟨ha1, ha2, ha3⟩ := (mem_emptyCells hg).mp hrc2
      refine Or.inl ⟨rc2, ?_, ha3, hsafe2⟩
      rw [hg.1]
      exact mem_allCells2.mpr ⟨ha1, ha2⟩

/-- A position with a single safe reply: O threatens the anti-diagonal,
X must block at (2,0). -/
def wG4 : Game := gameOf [["X", "X", "O"], ["O", "O", "X"], ["", "", ""]] "X"

set_option maxHeartbeats 10000000 in
theorem claim_C4_witness :
    _minmax "O" "X" 9 emptyG true (-9999) 9999 = (0, emptyG) ∧
    forced (if wG4.current_player.label == "X" then "O" else "X")
      wG4.current_player.label 8 (place wG4 (2, 0) wG4.current_player.label) true = false := by
  have h := claim_C4 9 (by omega) wG4 (by decide) rfl (by decide) (by decide) (Or.inl rfl)
  exact ⟨h.1 "O" "X" (by decide) (by decide) (by decide),
    h.2 (2, 0) (by decide) ⟨(2, 0), by decide, by decide⟩⟩

end TTT
